import Mathlib

/-!
Verification of the arith interpreter (tokenizer, parser, bytecode compiler,
stack executor and line orchestrator) against its specification.

Modelling conventions, chosen once for the whole file:
* Rust strings are modelled as `List Char`; the Rust code iterates over
  `chars()`, so a character list is the faithful unit of work.
* The numeric scalar of the language is Rust `f64`. It is modelled by `ℚ`
  with exact decimal/scientific literal interpretation. Every concrete value
  appearing in the claims is a small integer, where `f64` arithmetic is
  exact, so the idealisation does not affect any claim.
* Rust character classes: `is_ascii_digit` is `Char.isDigit` exactly;
  `char::is_whitespace` is reproduced as the full Unicode White_Space set;
  `is_alphabetic` / `is_alphanumeric` are modelled by the ASCII classifiers
  (the claims and tests only use ASCII identifiers).
-/

deriving instance DecidableEq for Except

namespace Arith

/-- The Unicode White_Space set tested by the Rust `char::is_whitespace`. -/
def isWhitespaceR (c : Char) : Bool :=
  let v := c.val
  v = 0x09 || v = 0x0A || v = 0x0B || v = 0x0C || v = 0x0D || v = 0x20 ||
  v = 0x85 || v = 0xA0 || v = 0x1680 || (0x2000 ≤ v && v ≤ 0x200A) ||
  v = 0x2028 || v = 0x2029 || v = 0x202F || v = 0x205F || v = 0x3000

/-- Rust `str::trim`, left side. -/
def trimLeft (l : List Char) : List Char := l.dropWhile (fun c => isWhitespaceR c)

/-- Rust `str::trim`, right side. -/
def trimRight (l : List Char) : List Char :=
  (l.reverse.dropWhile (fun c => isWhitespaceR c)).reverse

/-- Rust `str::trim`: drop whitespace from both ends. -/
def trim (l : List Char) : List Char := trimRight (trimLeft l)

/-! ## Tokens (src/tokenizer.rs) -/

/-- `TokenType` from src/tokenizer.rs. Payload strings are character lists. -/
inductive TokenType where
  | Newline
  | Plus
  | Minus
  | Div
  | Mul
  | ParanOpen
  | ParanClose
  | Comment (contents : List Char)
  | Number (value : List Char)
  | EOF
  | Let
  | Identifier (name : List Char)
  | Assign
  | Colon
  | PlusAssign
  | MinusAssign
  | MulAssign
  | DivAssign
deriving DecidableEq, Repr

/-- `Token` from src/tokenizer.rs: a token type with 1-based position data.
The Rust field `end` is a Lean keyword, so it is called `endPos` here. -/
structure Token where
  token_type : TokenType
  line_no : Nat
  start : Nat
  endPos : Nat
deriving DecidableEq, Repr

namespace Token

def plus (line_no pos : Nat) : Token := ⟨.Plus, line_no, pos, pos⟩
def minus (line_no pos : Nat) : Token := ⟨.Minus, line_no, pos, pos⟩
def div (line_no pos : Nat) : Token := ⟨.Div, line_no, pos, pos⟩
def mul (line_no pos : Nat) : Token := ⟨.Mul, line_no, pos, pos⟩
def paran_open (line_no pos : Nat) : Token := ⟨.ParanOpen, line_no, pos, pos⟩
def paran_close (line_no pos : Nat) : Token := ⟨.ParanClose, line_no, pos, pos⟩
def comment (contents : List Char) (line_no start : Nat) : Token :=
  ⟨.Comment contents, line_no, start, start + contents.length⟩
def number (value : List Char) (line_no start : Nat) : Token :=
  ⟨.Number value, line_no, start, start + value.length⟩
def let_token (line_no start endPos : Nat) : Token := ⟨.Let, line_no, start, endPos⟩
def identifier (name : List Char) (line_no start endPos : Nat) : Token :=
  ⟨.Identifier name, line_no, start, endPos⟩
def colon (line_no pos : Nat) : Token := ⟨.Colon, line_no, pos, pos⟩
def assign (line_no pos : Nat) : Token := ⟨.Assign, line_no, pos, pos⟩
def plus_assign (line_no pos : Nat) : Token := ⟨.PlusAssign, line_no, pos, pos⟩
def minus_assign (line_no pos : Nat) : Token := ⟨.MinusAssign, line_no, pos, pos⟩
def mul_assign (line_no pos : Nat) : Token := ⟨.MulAssign, line_no, pos, pos⟩
def div_assign (line_no pos : Nat) : Token := ⟨.DivAssign, line_no, pos, pos⟩
def newline (line_no pos : Nat) : Token := ⟨.Newline, line_no, pos, pos⟩
def eof (line_no pos : Nat) : Token := ⟨.EOF, line_no, pos, pos⟩

end Token

/-- `TokenizerError` from src/errors.rs. -/
inductive TokenizerError where
  | UnexpectedCharacter (found : Char) (line : Nat) (col : Nat)
deriving DecidableEq, Repr

/-! ## The tokenizer (src/tokenizer.rs, `Tokenizer::tokenize`) -/

/-- The number scanner of the digit branch: greedily consume digits,
allowing at most one dot. Returns the consumed prefix and the rest. -/
def numScan : List Char → Bool → List Char × List Char
  | [], _ => ([], [])
  | c :: cs, hasDot =>
    if c.isDigit then
      let r := numScan cs hasDot
      (c :: r.1, r.2)
    else if c = '.' && !hasDot then
      let r := numScan cs true
      (c :: r.1, r.2)
    else ([], c :: cs)

/-- The exponent scanner of the digit branch: an optional e or E marker,
an optional sign, then greedy digits. Returns the consumed part and the rest. -/
def expScan : List Char → List Char × List Char
  | [] => ([], [])
  | c :: cs =>
    if c = 'e' || c = 'E' then
      match cs with
      | d :: ds =>
        if d = '+' || d = '-' then
          (c :: d :: ds.takeWhile Char.isDigit, ds.dropWhile Char.isDigit)
        else
          (c :: cs.takeWhile Char.isDigit, cs.dropWhile Char.isDigit)
      | [] => ([c], [])
    else ([], c :: cs)

theorem numScan_snd_sublist : ∀ (l : List Char) (b : Bool),
    List.Sublist (numScan l b).2 l := by
  intro l
  induction l with
  | nil => intro b; simp [numScan]
  | cons c cs ih =>
    intro b
    simp only [numScan]
    split
    · exact (ih b).cons c
    · split
      · exact (ih true).cons c
      · simp

theorem numScan_digit_sublist {c : Char} (cs : List Char) (b : Bool)
    (h : c.isDigit = true) : List.Sublist (numScan (c :: cs) b).2 cs := by
  simp only [numScan, h, if_pos]
  exact numScan_snd_sublist cs b

theorem expScan_snd_sublist : ∀ l : List Char, List.Sublist (expScan l).2 l := by
  intro l
  match l with
  | [] => simp [expScan]
  | c :: cs =>
    simp only [expScan]
    split
    · cases cs with
      | nil => simp
      | cons d ds =>
        show (if d = '+' || d = '-' then
                (c :: d :: ds.takeWhile Char.isDigit, ds.dropWhile Char.isDigit)
              else (c :: (d :: ds).takeWhile Char.isDigit, (d :: ds).dropWhile Char.isDigit)).2.Sublist
            (c :: d :: ds)
        split
        · exact ((List.dropWhile_sublist _).cons d).cons c
        · exact (List.dropWhile_sublist _).cons c
    · simp

/-- One iteration of the tokenizer loop: the produced token (if any), the
remaining input, and the updated line and column counters. `line` and `col`
are the 0-based counters of the Rust code; tokens carry 1-based positions. -/
structure StepOut where
  tok : Option Token
  rest : List Char
  line : Nat
  col : Nat
deriving DecidableEq, Repr

/-- The characters at which an iteration of the tokenizer loop can begin a
token (or be skipped): anything else hits the error arm of the match. -/
def recognizedStart (c : Char) : Bool :=
  c = '+' || c = '-' || c = '*' || c = '/' || c = '(' || c = ')' || c = '=' ||
  c = ':' || c = ';' || c = '\n' || c.isDigit || isWhitespaceR c ||
  c.isAlpha || c = '_'

/-- Facts about one successful iteration of the tokenizer loop that later
proofs use: the rest shrinks and stays inside the input, a produced token is
never EOF, only a whitespace character produces no token, and comment or
newline tokens can only come from their starting characters. -/
structure StepInv (c : Char) (cs : List Char) (o : StepOut) : Prop where
  rest_le : o.rest.length ≤ cs.length
  rest_sub : o.rest ⊆ c :: cs
  tok_ne_eof : ∀ t, o.tok = some t → t.token_type ≠ .EOF
  none_ws : o.tok = none → isWhitespaceR c = true ∧ o.rest = cs
  comment_semi : ∀ t con, o.tok = some t → t.token_type = .Comment con → c = ';'
  newline_nl : ∀ t, o.tok = some t → t.token_type = .Newline → c = '\n'

/-- Facts about a failing iteration: the error names exactly the current
character, at the current position, and that character starts nothing. -/
def StepErrInv (c : Char) (line col : Nat) (e : TokenizerError) : Prop :=
  e = .UnexpectedCharacter c (line+1) (col+1) ∧ recognizedStart c = false

theorem stepInv_of_tok (c : Char) (cs : List Char) (t : Token) (rest : List Char)
    (ln cl : Nat) (hle : rest.length ≤ cs.length) (hsub : rest ⊆ c :: cs)
    (hne : t.token_type ≠ .EOF)
    (hcom : ∀ con, t.token_type = .Comment con → c = ';')
    (hnl : t.token_type = .Newline → c = '\n') :
    StepInv c cs ⟨some t, rest, ln, cl⟩ := by
  refine ⟨hle, hsub, ?_, ?_, ?_, ?_⟩
  · rintro t2 h
    cases h
    exact hne
  · intro h
    exact Option.noConfusion h
  · rintro t2 con h
    cases h
    exact hcom con
  · rintro t2 h
    cases h
    exact hnl

theorem stepInv_of_none (c : Char) (cs : List Char) (ln cl : Nat)
    (hws : isWhitespaceR c = true) : StepInv c cs ⟨none, cs, ln, cl⟩ := by
  refine ⟨Nat.le_refl _, List.subset_cons_self _ _, ?_, fun _ => ⟨hws, rfl⟩, ?_, ?_⟩
  · rintro t h
    exact Option.noConfusion h
  · rintro t con h
    exact Option.noConfusion h
  · rintro t h
    exact Option.noConfusion h

/-- The body of the `while` loop of `Tokenizer::tokenize`, for current
character `c` with remaining input `cs`; branches in source order. The
subtypes carry the per-iteration facts proved branch by branch. -/
def step (c : Char) (cs : List Char) (line col : Nat) :
    Except {e : TokenizerError // StepErrInv c line col e}
           {o : StepOut // StepInv c cs o} :=
  if h : c = '+' then
    if cs.head? = some '=' then
      .ok ⟨⟨some (Token.plus_assign (line+1) (col+1)), cs.tail, line, col+2⟩,
        stepInv_of_tok _ _ _ _ _ _ (List.tail_sublist cs).length_le
          ((List.tail_sublist cs).subset.trans (List.subset_cons_self _ _))
          (by simp [Token.plus_assign]) (by simp [Token.plus_assign]) (by simp [Token.plus_assign])⟩
    else
      .ok ⟨⟨some (Token.plus (line+1) (col+1)), cs, line, col+1⟩,
        stepInv_of_tok _ _ _ _ _ _ (Nat.le_refl _) (List.subset_cons_self _ _)
          (by simp [Token.plus]) (by simp [Token.plus]) (by simp [Token.plus])⟩
  else if h : c = '-' then
    if cs.head? = some '=' then
      .ok ⟨⟨some (Token.minus_assign (line+1) (col+1)), cs.tail, line, col+2⟩,
        stepInv_of_tok _ _ _ _ _ _ (List.tail_sublist cs).length_le
          ((List.tail_sublist cs).subset.trans (List.subset_cons_self _ _))
          (by simp [Token.minus_assign]) (by simp [Token.minus_assign]) (by simp [Token.minus_assign])⟩
    else
      .ok ⟨⟨some (Token.minus (line+1) (col+1)), cs, line, col+1⟩,
        stepInv_of_tok _ _ _ _ _ _ (Nat.le_refl _) (List.subset_cons_self _ _)
          (by simp [Token.minus]) (by simp [Token.minus]) (by simp [Token.minus])⟩
  else if h : c = '*' then
    if cs.head? = some '=' then
      .ok ⟨⟨some (Token.mul_assign (line+1) (col+1)), cs.tail, line, col+2⟩,
        stepInv_of_tok _ _ _ _ _ _ (List.tail_sublist cs).length_le
          ((List.tail_sublist cs).subset.trans (List.subset_cons_self _ _))
          (by simp [Token.mul_assign]) (by simp [Token.mul_assign]) (by simp [Token.mul_assign])⟩
    else
      .ok ⟨⟨some (Token.mul (line+1) (col+1)), cs, line, col+1⟩,
        stepInv_of_tok _ _ _ _ _ _ (Nat.le_refl _) (List.subset_cons_self _ _)
          (by simp [Token.mul]) (by simp [Token.mul]) (by simp [Token.mul])⟩
  else if h : c = '/' then
    if cs.head? = some '=' then
      .ok ⟨⟨some (Token.div_assign (line+1) (col+1)), cs.tail, line, col+2⟩,
        stepInv_of_tok _ _ _ _ _ _ (List.tail_sublist cs).length_le
          ((List.tail_sublist cs).subset.trans (List.subset_cons_self _ _))
          (by simp [Token.div_assign]) (by simp [Token.div_assign]) (by simp [Token.div_assign])⟩
    else
      .ok ⟨⟨some (Token.div (line+1) (col+1)), cs, line, col+1⟩,
        stepInv_of_tok _ _ _ _ _ _ (Nat.le_refl _) (List.subset_cons_self _ _)
          (by simp [Token.div]) (by simp [Token.div]) (by simp [Token.div])⟩
  else if h : c = '(' then
    .ok ⟨⟨some (Token.paran_open (line+1) (col+1)), cs, line, col+1⟩,
      stepInv_of_tok _ _ _ _ _ _ (Nat.le_refl _) (List.subset_cons_self _ _)
        (by simp [Token.paran_open]) (by simp [Token.paran_open]) (by simp [Token.paran_open])⟩
  else if h : c = ')' then
    .ok ⟨⟨some (Token.paran_close (line+1) (col+1)), cs, line, col+1⟩,
      stepInv_of_tok _ _ _ _ _ _ (Nat.le_refl _) (List.subset_cons_self _ _)
        (by simp [Token.paran_close]) (by simp [Token.paran_close]) (by simp [Token.paran_close])⟩
  else if h : c = '=' then
    .ok ⟨⟨some (Token.assign (line+1) (col+1)), cs, line, col+1⟩,
      stepInv_of_tok _ _ _ _ _ _ (Nat.le_refl _) (List.subset_cons_self _ _)
        (by simp [Token.assign]) (by simp [Token.assign]) (by simp [Token.assign])⟩
  else if h : c = ':' then
    .ok ⟨⟨some (Token.colon (line+1) (col+1)), cs, line, col+1⟩,
      stepInv_of_tok _ _ _ _ _ _ (Nat.le_refl _) (List.subset_cons_self _ _)
        (by simp [Token.colon]) (by simp [Token.colon]) (by simp [Token.colon])⟩
  else if h : c = ';' then
    .ok ⟨⟨some (Token.comment (cs.takeWhile (fun x => x ≠ '\n')) (line+1) (col+1)),
          cs.dropWhile (fun x => x ≠ '\n'),
          line, col + 1 + (cs.takeWhile (fun x => x ≠ '\n')).length⟩,
      stepInv_of_tok _ _ _ _ _ _ (List.dropWhile_sublist _).length_le
        ((List.dropWhile_sublist _).subset.trans (List.subset_cons_self _ _))
        (by simp [Token.comment]) (fun _ _ => h) (by simp [Token.comment])⟩
  else if h : c = '\n' then
    .ok ⟨⟨some (Token.newline (line+1) (col+1)), cs, line+1, 0⟩,
      stepInv_of_tok _ _ _ _ _ _ (Nat.le_refl _) (List.subset_cons_self _ _)
        (by simp [Token.newline]) (by simp [Token.newline]) (fun _ => h)⟩
  else if h : c.isDigit then
    .ok ⟨⟨some (Token.number ((numScan (c :: cs) false).1 ++ (expScan (numScan (c :: cs) false).2).1)
                  (line+1) (col+1)),
          (expScan (numScan (c :: cs) false).2).2,
          line, col + ((numScan (c :: cs) false).1 ++ (expScan (numScan (c :: cs) false).2).1).length⟩,
      stepInv_of_tok _ _ _ _ _ _
        ((expScan_snd_sublist _).trans (numScan_digit_sublist cs false h)).length_le
        ((expScan_snd_sublist _).trans (numScan_snd_sublist (c :: cs) false)).subset
        (by simp [Token.number]) (by simp [Token.number]) (by simp [Token.number])⟩
  else if h : isWhitespaceR c then
    .ok ⟨⟨none, cs, line, col+1⟩, stepInv_of_none _ _ _ _ h⟩
  else if h : c.isAlpha || c = '_' then
    .ok ⟨⟨some (if (c :: cs).takeWhile (fun x => x.isAlphanum || x = '_') = "let".data
                then Token.let_token (line+1) (col+1)
                       (col + ((c :: cs).takeWhile (fun x => x.isAlphanum || x = '_')).length)
                else Token.identifier ((c :: cs).takeWhile (fun x => x.isAlphanum || x = '_'))
                       (line+1) (col+1)
                       (col + ((c :: cs).takeWhile (fun x => x.isAlphanum || x = '_')).length)),
          (c :: cs).dropWhile (fun x => x.isAlphanum || x = '_'),
          line, col + ((c :: cs).takeWhile (fun x => x.isAlphanum || x = '_')).length⟩,
      stepInv_of_tok _ _ _ _ _ _
        (by
          have hp : (c.isAlphanum || decide (c = '_')) = true := by
            rcases Bool.or_eq_true_iff.mp h with h1 | h1
            · simp [Char.isAlphanum, h1]
            · simp_all
          rw [List.dropWhile_cons]
          simp only [hp, if_true]
          exact (List.dropWhile_sublist _).length_le)
        (List.dropWhile_sublist _).subset
        (by split <;> simp [Token.let_token, Token.identifier])
        (by split <;> simp [Token.let_token, Token.identifier])
        (by split <;> simp [Token.let_token, Token.identifier])⟩
  else
    .error ⟨.UnexpectedCharacter c (line+1) (col+1),
      rfl, by simp_all [recognizedStart]⟩

/-- The tokenizer loop of `Tokenizer::tokenize` (src/tokenizer.rs), structured
on fuel so that it computes by kernel reduction. `none` means the fuel ran
out; `tokenize_fuel_sufficient` shows that never happens for the fuel
`tokenize` supplies, because every iteration consumes at least one character.
When the input is exhausted the single EOF token is appended, exactly once. -/
def tokenizeAuxF : Nat → List Char → Nat → Nat → Option (Except TokenizerError (List Token))
  | _, [], line, col => some (.ok [Token.eof (line+1) (col+1)])
  | 0, _ :: _, _, _ => none
  | n+1, c :: cs, line, col =>
    match step c cs line col with
    | .error e => some (.error e.val)
    | .ok o =>
      match tokenizeAuxF n o.val.rest o.val.line o.val.col with
      | none => none
      | some (.error e) => some (.error e)
      | some (.ok ts) =>
        some (.ok (match o.val.tok with | some t => t :: ts | none => ts))

theorem tokenize_fuel_sufficient :
    ∀ (n : Nat) (l : List Char) (line col : Nat), l.length ≤ n →
      (tokenizeAuxF n l line col).isSome := by
  intro n
  induction n with
  | zero =>
    intro l line col h
    have : l = [] := List.eq_nil_of_length_eq_zero (Nat.le_zero.mp h)
    subst this
    simp [tokenizeAuxF]
  | succ n ih =>
    intro l line col h
    match l with
    | [] => simp [tokenizeAuxF]
    | c :: cs =>
      simp only [tokenizeAuxF]
      match hs : step c cs line col with
      | .error e => simp
      | .ok o =>
        have h1 : o.val.rest.length ≤ n :=
          Nat.le_trans o.property.rest_le (Nat.le_of_succ_le_succ h)
        have h2 := ih o.val.rest o.val.line o.val.col h1
        match hrec : tokenizeAuxF n o.val.rest o.val.line o.val.col with
        | none => rw [hrec] at h2; simp at h2
        | some (.error e) => simp [hrec]
        | some (.ok ts) => simp [hrec]

/-- `Tokenizer::tokenize` from src/tokenizer.rs. -/
def tokenize (content : List Char) : Except TokenizerError (List Token) :=
  (tokenizeAuxF content.length content 0 0).get
    (tokenize_fuel_sufficient content.length content 0 0 (Nat.le_refl _))

example : tokenize "1+1".data =
    .ok [Token.number ['1'] 1 1, Token.plus 1 2, Token.number ['1'] 1 3, Token.eof 1 4] := by
  simp +decide [tokenize, tokenizeAuxF, step, numScan, expScan]

/-- The head of a nonempty `dropWhile` result fails the predicate. -/
theorem dropWhile_head_false (p : Char → Bool) :
    ∀ (l r : List Char) (c : Char), l.dropWhile p = c :: r → p c = false := by
  intro l
  induction l with
  | nil => intro r c h; simp at h
  | cons a tl ih =>
    intro r c h
    rw [List.dropWhile_cons] at h
    split at h
    · exact ih r c h
    · cases h
      simp_all

/-- Every character of a trimmed string is a character of the string. -/
theorem trim_subset (l : List Char) : trim l ⊆ l := by
  intro x hx
  unfold trim trimRight trimLeft at hx
  rw [List.mem_reverse] at hx
  have h1 := (List.dropWhile_sublist
    (fun c => isWhitespaceR c)).subset hx
  rw [List.mem_reverse] at h1
  exact (List.dropWhile_sublist (fun c => isWhitespaceR c)).subset h1

/-- A nonempty trimmed string contains a non-whitespace character. -/
theorem trim_ne_nil_exists_nonws {l : List Char} (h : trim l ≠ []) :
    ∃ c ∈ trim l, isWhitespaceR c = false := by
  unfold trim trimRight at h ⊢
  rcases hm : (trimLeft l).reverse.dropWhile (fun c => isWhitespaceR c) with _ | ⟨c, r⟩
  · simp [hm] at h
  · refine ⟨c, ?_, dropWhile_head_false _ _ _ _ hm⟩
    rw [List.mem_reverse]
    exact List.mem_cons_self c r

/-- The complete behaviour of the tokenizer loop needed by the claims: a
successful run ends in exactly one EOF token; no semicolon in the input
means no comment token and no newline character means no newline token; a
non-whitespace character guarantees a token besides the final EOF; a failed
run reports an unrecognized character of the input. -/
theorem tokenizeAuxF_spec :
    ∀ (n : Nat) (l : List Char) (line col : Nat),
      (∀ ts, tokenizeAuxF n l line col = some (.ok ts) →
        (∃ pre L C, ts = pre ++ [Token.eof L C] ∧ ∀ t ∈ pre, t.token_type ≠ .EOF) ∧
        ((';' ∉ l) → ∀ t ∈ ts, ∀ con, t.token_type ≠ .Comment con) ∧
        (('\n' ∉ l) → ∀ t ∈ ts, t.token_type ≠ .Newline) ∧
        ((∃ c ∈ l, isWhitespaceR c = false) → ∃ t ∈ ts, t.token_type ≠ .EOF)) ∧
      (∀ e, tokenizeAuxF n l line col = some (.error e) →
        ∃ c L C, e = .UnexpectedCharacter c L C ∧ recognizedStart c = false ∧ c ∈ l) := by
  intro n
  induction n with
  | zero =>
    intro l line col
    rcases l with _ | ⟨c, cs⟩
    · constructor
      · intro ts h
        simp only [tokenizeAuxF] at h
        cases h
        refine ⟨⟨[], line+1, col+1, by simp, by simp⟩, ?_, ?_, ?_⟩
        · intro _ t ht con
          simp at ht
          subst ht
          simp [Token.eof]
        · intro _ t ht
          simp at ht
          subst ht
          simp [Token.eof]
        · intro hex
          simp at hex
      · intro e h
        simp [tokenizeAuxF] at h
    · constructor
      · intro ts h
        simp [tokenizeAuxF] at h
      · intro e h
        simp [tokenizeAuxF] at h
  | succ n ih =>
    intro l line col
    rcases l with _ | ⟨c, cs⟩
    · constructor
      · intro ts h
        simp only [tokenizeAuxF] at h
        cases h
        refine ⟨⟨[], line+1, col+1, by simp, by simp⟩, ?_, ?_, ?_⟩
        · intro _ t ht con
          simp at ht
          subst ht
          simp [Token.eof]
        · intro _ t ht
          simp at ht
          subst ht
          simp [Token.eof]
        · intro hex
          simp at hex
      · intro e h
        simp [tokenizeAuxF] at h
    · simp only [tokenizeAuxF]
      rcases hs : step c cs line col with e | o
      all_goals simp only [hs]
      · constructor
        · intro ts h
          simp at h
        · intro e2 h
          simp only [Option.some.injEq, Except.error.injEq] at h
          subst h
          obtain ⟨herr, hrec⟩ := e.property
          exact ⟨c, line+1, col+1, herr, hrec, List.mem_cons_self c cs⟩
      · rcases hrec : tokenizeAuxF n o.val.rest o.val.line o.val.col with _ | (e2 | ts2)
        all_goals simp only [hrec]
        · constructor
          · intro ts h
            simp at h
          · intro e2 h
            simp at h
        · constructor
          · intro ts h
            simp at h
          · intro e3 h
            simp only [Option.some.injEq, Except.error.injEq] at h
            obtain ⟨c2, L, C, hshape, hrc, hmem⟩ := (ih o.val.rest o.val.line o.val.col).2 e2 hrec
            subst h
            exact ⟨c2, L, C, hshape, hrc, o.property.rest_sub hmem⟩
        · constructor
          · intro ts h
            simp only [Option.some.injEq, Except.ok.injEq] at h
            subst h
            obtain ⟨⟨pre2, L, C, hdec, hpre⟩, hcom, hnl, hnb⟩ :=
              (ih o.val.rest o.val.line o.val.col).1 ts2 hrec
            have hsemi_rest : (';' ∉ c :: cs) → ';' ∉ o.val.rest := by
              intro hninp hmem
              exact hninp (o.property.rest_sub hmem)
            have hnl_rest : ('\n' ∉ c :: cs) → '\n' ∉ o.val.rest := by
              intro hninp hmem
              exact hninp (o.property.rest_sub hmem)
            rcases htk : o.val.tok with _ | t
            all_goals simp only [htk]
            · -- skipped whitespace: the token list is unchanged
              obtain ⟨hws, hrest⟩ := o.property.none_ws htk
              refine ⟨⟨pre2, L, C, hdec, hpre⟩, ?_, ?_, ?_⟩
              · intro hninp
                exact hcom (hsemi_rest hninp)
              · intro hninp
                exact hnl (hnl_rest hninp)
              · rintro ⟨c2, hc2, hc2w⟩
                rcases List.mem_cons.mp hc2 with rfl | hc2cs
                · rw [hws] at hc2w
                  cases hc2w
                · exact hnb ⟨c2, by rw [hrest]; exact hc2cs, hc2w⟩
            · refine ⟨⟨t :: pre2, L, C, by rw [hdec]; rfl, ?_⟩, ?_, ?_, ?_⟩
              · intro t2 ht2
                rcases List.mem_cons.mp ht2 with rfl | hin
                · exact o.property.tok_ne_eof t2 htk
                · exact hpre t2 hin
              · intro hninp t2 ht2 con
                rcases List.mem_cons.mp ht2 with rfl | hin
                · intro hcon
                  exact hninp (by rw [o.property.comment_semi t2 con htk hcon]; exact List.mem_cons_self _ _)
                · exact hcom (hsemi_rest hninp) t2 hin con
              · intro hninp t2 ht2
                rcases List.mem_cons.mp ht2 with rfl | hin
                · intro hcon
                  exact hninp (by rw [o.property.newline_nl t2 htk hcon]; exact List.mem_cons_self _ _)
                · exact hnl (hnl_rest hninp) t2 hin
              · intro _
                exact ⟨t, List.mem_cons_self t ts2, o.property.tok_ne_eof t htk⟩
          · intro e2 h
            simp at h

/-! ## AST and parser errors (src/parser.rs, src/errors.rs) -/

/-- `Expr` from src/parser.rs. Numbers carry the rational modelling the
parsed `f64`. Operators are carried as token types, as in the source. -/
inductive Expr where
  | Number (n : ℚ)
  | UnaryOp (op : TokenType) (expr : Expr)
  | BinaryOp (left : Expr) (op : TokenType) (right : Expr)
  | Empty
  | EmptyParen
deriving DecidableEq, Repr

/-- `ParserError` from src/errors.rs. The `TokenizerError` variant carries
the offending character; the Rust code stores the rendered message string
built from that same character. -/
inductive ParserError where
  | UnexpectedToken (found : TokenType) (line : Nat) (col : Nat)
  | UnexpectedEOF (line : Nat) (col : Nat)
  | InvalidNumber (value : List Char) (line : Nat) (col : Nat)
  | TokenizerError (found : Char) (line : Nat) (col : Nat)
deriving DecidableEq, Repr

/-- The natural number denoted by a digit string, most significant first. -/
def digitsToNat (l : List Char) : Nat :=
  l.foldl (fun a c => 10 * a + (c.toNat - '0'.toNat)) 0

/-- Rust `str::parse::<f64>` restricted to unsigned decimal and scientific
literals, the only shapes a `Number` token can hold: digits, at most one
dot, then an optional e/E exponent whose digits are mandatory. The value is
the exact rational, the idealisation of the rounded `f64`. Signed literals,
inf and nan are not modelled: a `Number` token always starts with a digit. -/
def rustParseFloat (s : List Char) : Option ℚ :=
  let intD := s.takeWhile Char.isDigit
  let r1 := s.dropWhile Char.isDigit
  let fr : List Char × List Char :=
    match r1 with
    | '.' :: t => (t.takeWhile Char.isDigit, t.dropWhile Char.isDigit)
    | _ => ([], r1)
  if intD.isEmpty && fr.1.isEmpty then none
  else
    let mant : ℚ := (digitsToNat intD : ℚ) + (digitsToNat fr.1 : ℚ) / (10 : ℚ) ^ fr.1.length
    match fr.2 with
    | [] => some mant
    | c :: t =>
      if c = 'e' || c = 'E' then
        let st : Int × List Char :=
          match t with
          | d :: ds => if d = '+' then (1, ds) else if d = '-' then (-1, ds) else (1, t)
          | [] => (1, [])
        let eD := st.2.takeWhile Char.isDigit
        if eD.isEmpty then none
        else if (st.2.dropWhile Char.isDigit).isEmpty then
          some (mant * (10 : ℚ) ^ (st.1 * (digitsToNat eD : Int)))
        else none
      else none

/-! ## The parser (src/parser.rs, `Parser`) -/

/-- Rust `Parser::new` filters comment and newline tokens out before parsing. -/
def filterTokens (ts : List Token) : List Token :=
  ts.filter (fun t =>
    !(match t.token_type with
      | .Comment _ => true
      | .Newline => true
      | _ => false))

/-- Rust `Parser::current`. The parser state is the list of not yet consumed
tokens; `current` is its head. Token streams reaching the parser end with
EOF and are never exhausted (`advance` never discards the final EOF, because
every advance happens on a non-EOF current token), so the default value of
`headD` is never consulted; it only makes the function total. -/
def cur (ts : List Token) : Token := ts.headD (Token.eof 0 0)

theorem cur_nil : cur ([] : List Token) = Token.eof 0 0 := rfl

theorem cur_cons (t : Token) (tl : List Token) : cur (t :: tl) = t := rfl

/-- The Rust `?` operator on parser results, on the fueled result type:
out of fuel and errors propagate, a success feeds the continuation. -/
def obind (res : Option (Except ParserError (Expr × List Token)))
    (f : Expr × List Token → Option (Except ParserError (Expr × List Token))) :
    Option (Except ParserError (Expr × List Token)) :=
  match res with
  | none => none
  | some (.error e) => some (.error e)
  | some (.ok p) => f p

@[simp] theorem obind_none (f) : obind none f = none := rfl

@[simp] theorem obind_error (e f) : obind (some (.error e)) f = some (.error e) := rfl

@[simp] theorem obind_ok (p f) : obind (some (.ok p)) f = f p := rfl

mutual

/-- Rust `Parser::parse_factor`, on fuel. `none` means the fuel ran out;
`parse` supplies fuel that `parse_exprF_isSome` proves is enough.
Advancing past the current token is `List.tail`. -/
def parse_factorF : Nat → List Token → Option (Except ParserError (Expr × List Token))
  | 0, _ => none
  | n+1, ts =>
    match (cur ts).token_type with
    | .Plus | .Minus =>
      obind (parse_factorF n ts.tail)
        (fun p => some (.ok (.UnaryOp (cur ts).token_type p.1, p.2)))
    | .Number v =>
      match rustParseFloat v with
      | some q => some (.ok (.Number q, ts.tail))
      | none => some (.error (.InvalidNumber v (cur ts).line_no (cur ts).start))
    | .ParanOpen =>
      match (cur ts.tail).token_type with
      | .ParanClose => some (.ok (.EmptyParen, ts.tail.tail))
      | _ =>
        obind (parse_exprF n ts.tail) (fun p =>
          match (cur p.2).token_type with
          | .ParanClose => some (.ok (p.1, p.2.tail))
          | _ => some (.error (.UnexpectedToken (cur p.2).token_type
                        (cur p.2).line_no (cur p.2).start)))
    | _ => some (.error (.UnexpectedToken (cur ts).token_type
                  (cur ts).line_no (cur ts).start))

/-- Rust `Parser::parse_term`, on fuel: one factor then the star/slash and
implicit-multiplication loop. -/
def parse_termF : Nat → List Token → Option (Except ParserError (Expr × List Token))
  | 0, _ => none
  | n+1, ts =>
    obind (parse_factorF n ts) (fun p => parse_term_loopF n p.1 p.2)

/-- The `while` loop of `Parser::parse_term`: explicit `*` and `/`, and
implicit multiplication when the current token opens a parenthesis or is a
number, at the same precedence. -/
def parse_term_loopF : Nat → Expr → List Token → Option (Except ParserError (Expr × List Token))
  | 0, _, _ => none
  | n+1, node, ts =>
    match (cur ts).token_type with
    | .ParanOpen | .Number _ =>
      obind (parse_factorF n ts)
        (fun p => parse_term_loopF n (.BinaryOp node .Mul p.1) p.2)
    | .Mul | .Div =>
      obind (parse_factorF n ts.tail)
        (fun p => parse_term_loopF n (.BinaryOp node (cur ts).token_type p.1) p.2)
    | _ => some (.ok (node, ts))

/-- Rust `Parser::parse_expr`, on fuel: one term then the plus/minus loop. -/
def parse_exprF : Nat → List Token → Option (Except ParserError (Expr × List Token))
  | 0, _ => none
  | n+1, ts =>
    obind (parse_termF n ts) (fun p => parse_expr_loopF n p.1 p.2)

/-- The `while` loop of `Parser::parse_expr`: left-associative `+` and `-`. -/
def parse_expr_loopF : Nat → Expr → List Token → Option (Except ParserError (Expr × List Token))
  | 0, _, _ => none
  | n+1, node, ts =>
    match (cur ts).token_type with
    | .Plus | .Minus =>
      obind (parse_termF n ts.tail)
        (fun p => parse_expr_loopF n (.BinaryOp node (cur ts).token_type p.1) p.2)
    | _ => some (.ok (node, ts))

end

mutual

/-- `parse_factorF` with every `obind` written as an explicit match: the
same function (`parserM_eq`), in a form whose applications to concrete
token lists reduce branch by branch. -/
def parse_factorM : Nat → List Token → Option (Except ParserError (Expr × List Token))
  | 0, _ => none
  | n+1, ts =>
    match (cur ts).token_type with
    | .Plus | .Minus =>
      match parse_factorM n ts.tail with
      | none => none
      | some (.error e) => some (.error e)
      | some (.ok p) => some (.ok (.UnaryOp (cur ts).token_type p.1, p.2))
    | .Number v =>
      match rustParseFloat v with
      | some q => some (.ok (.Number q, ts.tail))
      | none => some (.error (.InvalidNumber v (cur ts).line_no (cur ts).start))
    | .ParanOpen =>
      match (cur ts.tail).token_type with
      | .ParanClose => some (.ok (.EmptyParen, ts.tail.tail))
      | _ =>
        match parse_exprM n ts.tail with
        | none => none
        | some (.error e) => some (.error e)
        | some (.ok p) =>
          match (cur p.2).token_type with
          | .ParanClose => some (.ok (p.1, p.2.tail))
          | _ => some (.error (.UnexpectedToken (cur p.2).token_type
                        (cur p.2).line_no (cur p.2).start))
    | _ => some (.error (.UnexpectedToken (cur ts).token_type
                  (cur ts).line_no (cur ts).start))

def parse_termM : Nat → List Token → Option (Except ParserError (Expr × List Token))
  | 0, _ => none
  | n+1, ts =>
    match parse_factorM n ts with
    | none => none
    | some (.error e) => some (.error e)
    | some (.ok p) => parse_term_loopM n p.1 p.2

def parse_term_loopM : Nat → Expr → List Token → Option (Except ParserError (Expr × List Token))
  | 0, _, _ => none
  | n+1, node, ts =>
    match (cur ts).token_type with
    | .ParanOpen | .Number _ =>
      match parse_factorM n ts with
      | none => none
      | some (.error e) => some (.error e)
      | some (.ok p) => parse_term_loopM n (.BinaryOp node .Mul p.1) p.2
    | .Mul | .Div =>
      match parse_factorM n ts.tail with
      | none => none
      | some (.error e) => some (.error e)
      | some (.ok p) => parse_term_loopM n (.BinaryOp node (cur ts).token_type p.1) p.2
    | _ => some (.ok (node, ts))

def parse_exprM : Nat → List Token → Option (Except ParserError (Expr × List Token))
  | 0, _ => none
  | n+1, ts =>
    match parse_termM n ts with
    | none => none
    | some (.error e) => some (.error e)
    | some (.ok p) => parse_expr_loopM n p.1 p.2

def parse_expr_loopM : Nat → Expr → List Token → Option (Except ParserError (Expr × List Token))
  | 0, _, _ => none
  | n+1, node, ts =>
    match (cur ts).token_type with
    | .Plus | .Minus =>
      match parse_termM n ts.tail with
      | none => none
      | some (.error e) => some (.error e)
      | some (.ok p) => parse_expr_loopM n (.BinaryOp node (cur ts).token_type p.1) p.2
    | _ => some (.ok (node, ts))

end

/-- The match-style parser equals the `obind`-style one at every fuel. -/
theorem parserM_eq : ∀ n : Nat,
    (∀ ts, parse_factorM n ts = parse_factorF n ts) ∧
    (∀ ts, parse_termM n ts = parse_termF n ts) ∧
    (∀ node ts, parse_term_loopM n node ts = parse_term_loopF n node ts) ∧
    (∀ ts, parse_exprM n ts = parse_exprF n ts) ∧
    (∀ node ts, parse_expr_loopM n node ts = parse_expr_loopF n node ts) := by
  intro n
  induction n with
  | zero =>
    exact ⟨fun ts => rfl, fun ts => rfl, fun node ts => rfl,
      fun ts => rfl, fun node ts => rfl⟩
  | succ n ih =>
    obtain ⟨IHf, IHt, IHtl, IHe, IHel⟩ := ih
    refine ⟨?_, ?_, ?_, ?_, ?_⟩
    · intro ts
      simp only [parse_factorM, parse_factorF]
      rcases htt : (cur ts).token_type <;> simp only [htt]
      case Plus =>
        rw [IHf ts.tail]
        rcases hr : parse_factorF n ts.tail with _ | (e | p) <;> simp [hr, obind]
      case Minus =>
        rw [IHf ts.tail]
        rcases hr : parse_factorF n ts.tail with _ | (e | p) <;> simp [hr, obind]
      case ParanOpen =>
        rcases hct2 : (cur ts.tail).token_type <;> simp only [hct2] <;>
          first
          | rfl
          | (rw [IHe ts.tail]
             rcases hr : parse_exprF n ts.tail with _ | (e | p) <;> simp [hr, obind])
      all_goals rfl
    · intro ts
      simp only [parse_termM, parse_termF]
      rw [IHf ts]
      rcases hr : parse_factorF n ts with _ | (e | p) <;> simp [hr, obind, IHtl]
    · intro node ts
      simp only [parse_term_loopM, parse_term_loopF]
      rcases htt : (cur ts).token_type <;> simp only [htt]
      case ParanOpen =>
        rw [IHf ts]
        rcases hr : parse_factorF n ts with _ | (e | p) <;> simp [hr, obind, IHtl]
      case Number v =>
        rw [IHf ts]
        rcases hr : parse_factorF n ts with _ | (e | p) <;> simp [hr, obind, IHtl]
      case Mul =>
        rw [IHf ts.tail]
        rcases hr : parse_factorF n ts.tail with _ | (e | p) <;> simp [hr, obind, IHtl]
      case Div =>
        rw [IHf ts.tail]
        rcases hr : parse_factorF n ts.tail with _ | (e | p) <;> simp [hr, obind, IHtl]
      all_goals rfl
    · intro ts
      simp only [parse_exprM, parse_exprF]
      rw [IHt ts]
      rcases hr : parse_termF n ts with _ | (e | p) <;> simp [hr, obind, IHel]
    · intro node ts
      simp only [parse_expr_loopM, parse_expr_loopF]
      rcases htt : (cur ts).token_type <;> simp only [htt]
      case Plus =>
        rw [IHt ts.tail]
        rcases hr : parse_termF n ts.tail with _ | (e | p) <;> simp [hr, obind, IHel]
      case Minus =>
        rw [IHt ts.tail]
        rcases hr : parse_termF n ts.tail with _ | (e | p) <;> simp [hr, obind, IHel]
      all_goals rfl

/-- Rewriting rule used to evaluate the parser on concrete token lists. -/
theorem parse_exprF_eq_M (n : Nat) (ts : List Token) :
    parse_exprF n ts = parse_exprM n ts :=
  ((parserM_eq n).2.2.2.1 ts).symm

/-- Expressions the parser can build, other than the top-level `Empty`:
no `Empty` node anywhere, unary operators drawn from plus and minus, and
binary operators drawn from the four arithmetic ones. Compilation and
execution behave well exactly on these (`compile_good`). -/
def goodB : Expr → Bool
  | .Number _ => true
  | .UnaryOp op e =>
    (match op with | .Plus | .Minus => true | _ => false) && goodB e
  | .BinaryOp l op r =>
    (match op with | .Plus | .Minus | .Mul | .Div => true | _ => false)
      && goodB l && goodB r
  | .Empty => false
  | .EmptyParen => true

/-- Whether a parser error is the `UnexpectedEOF` variant. -/
def ParserError.isUEOF : ParserError → Bool
  | .UnexpectedEOF _ _ => true
  | _ => false

/-- What one parser call guarantees about a defined successful result on
input `ts`, strict form: tokens were consumed, what is left is shorter, and
the expression built is `goodB`; a failure is never `UnexpectedEOF`. -/
def okSpecS (ts : List Token) : Except ParserError (Expr × List Token) → Prop
  | .ok (e, r) => r.length < ts.length ∧ goodB e = true
  | .error pe => pe.isUEOF = false

/-- The loose form of `okSpecS`, for the two loops, which may consume
nothing. -/
def okSpecL (ts : List Token) : Except ParserError (Expr × List Token) → Prop
  | .ok (e, r) => r.length ≤ ts.length ∧ goodB e = true
  | .error pe => pe.isUEOF = false

theorem parser_spec : ∀ n : Nat,
    (∀ ts x, parse_factorF n ts = some x → okSpecS ts x) ∧
    (∀ ts x, parse_termF n ts = some x → okSpecS ts x) ∧
    (∀ node ts x, goodB node = true → parse_term_loopF n node ts = some x →
      okSpecL ts x) ∧
    (∀ ts x, parse_exprF n ts = some x → okSpecS ts x) ∧
    (∀ node ts x, goodB node = true → parse_expr_loopF n node ts = some x →
      okSpecL ts x) := by
  intro n
  induction n with
  | zero =>
    refine ⟨fun ts x hx => ?_, fun ts x hx => ?_, fun node ts x hn hx => ?_,
      fun ts x hx => ?_, fun node ts x hn hx => ?_⟩ <;>
      simp [parse_factorF, parse_termF, parse_term_loopF, parse_exprF,
        parse_expr_loopF] at hx
  | succ n ih =>
    obtain ⟨IHf, IHt, IHtl, IHe, IHel⟩ := ih
    refine ⟨?_, ?_, ?_, ?_, ?_⟩
    · -- parse_factorF
      intro ts x hx
      rcases ts with _ | ⟨t, tl⟩
      · simp only [parse_factorF, cur_nil, Token.eof] at hx
        cases hx
        simp [okSpecS, ParserError.isUEOF]
      · simp only [parse_factorF, cur_cons, List.tail_cons] at hx
        rcases htt : t.token_type <;> simp only [htt] at hx
        case Plus =>
          rcases hrec : parse_factorF n tl with _ | (e2 | ⟨e2, r2⟩) <;>
            rw [hrec] at hx
          · rw [obind_none] at hx
            exact Option.noConfusion hx
          · rw [obind_error] at hx
            cases hx
            simpa [okSpecS] using IHf tl _ hrec
          · rw [obind_ok] at hx
            cases hx
            have hspec := IHf tl _ hrec
            simp only [okSpecS] at hspec ⊢
            exact ⟨Nat.lt_succ_of_lt hspec.1, by simp [goodB, hspec.2]⟩
        case Minus =>
          rcases hrec : parse_factorF n tl with _ | (e2 | ⟨e2, r2⟩) <;>
            rw [hrec] at hx
          · rw [obind_none] at hx
            exact Option.noConfusion hx
          · rw [obind_error] at hx
            cases hx
            simpa [okSpecS] using IHf tl _ hrec
          · rw [obind_ok] at hx
            cases hx
            have hspec := IHf tl _ hrec
            simp only [okSpecS] at hspec ⊢
            exact ⟨Nat.lt_succ_of_lt hspec.1, by simp [goodB, hspec.2]⟩
        case Number v =>
          rcases hpf : rustParseFloat v with _ | q <;> rw [hpf] at hx
          · cases hx
            simp [okSpecS, ParserError.isUEOF]
          · cases hx
            refine ⟨?_, by simp [goodB]⟩
            have := (List.tail_sublist tl).length_le
            simp only [List.length_cons]
            omega
        case ParanOpen =>
          rcases hct2 : (cur tl).token_type <;> simp only [hct2] at hx
          case ParanClose =>
            cases hx
            refine ⟨?_, by simp [goodB]⟩
            have h1 := (List.tail_sublist tl).length_le
            have h2 := (List.tail_sublist tl.tail).length_le
            simp only [List.length_cons]
            omega
          all_goals
            rcases hrec : parse_exprF n tl with _ | (e2 | ⟨e2, r2⟩) <;> rw [hrec] at hx
          all_goals first
            | (rw [obind_none] at hx
               exact Option.noConfusion hx)
            | (rw [obind_error] at hx
               cases hx
               simpa [okSpecS] using IHe tl _ hrec)
            | (rw [obind_ok] at hx
               have hspec := IHe tl _ hrec
               simp only [okSpecS] at hspec
               rcases hcr : (cur r2).token_type <;> simp only [hcr] at hx <;>
                 cases hx <;>
                 first
                 | (simp only [okSpecS]
                    refine ⟨?_, hspec.2⟩
                    have := (List.tail_sublist r2).length_le
                    simp only [List.length_cons]
                    omega)
                 | simp [okSpecS, ParserError.isUEOF])
        all_goals
          cases hx
          simp [okSpecS, ParserError.isUEOF]
    · -- parse_termF
      intro ts x hx
      simp only [parse_termF] at hx
      rcases hrec : parse_factorF n ts with _ | (e2 | ⟨e2, r2⟩) <;>
        rw [hrec] at hx
      · rw [obind_none] at hx
        exact Option.noConfusion hx
      · rw [obind_error] at hx
        cases hx
        simpa [okSpecS] using IHf ts _ hrec
      · rw [obind_ok] at hx
        have hspec := IHf ts _ hrec
        simp only [okSpecS] at hspec
        have hloop := IHtl e2 r2 x hspec.2 hx
        rcases x with pe | ⟨e3, r3⟩
        · simpa [okSpecS, okSpecL] using hloop
        · simp only [okSpecL] at hloop
          simp only [okSpecS]
          exact ⟨by omega, hloop.2⟩
    · -- parse_term_loopF
      intro node ts x hnode hx
      rcases ts with _ | ⟨t, tl⟩
      · simp only [parse_term_loopF, cur_nil, Token.eof] at hx
        cases hx
        exact ⟨by simp, hnode⟩
      · simp only [parse_term_loopF, cur_cons, List.tail_cons] at hx
        rcases htt : t.token_type <;> simp only [htt] at hx
        case ParanOpen =>
          rcases hrec : parse_factorF n (t :: tl) with _ | (e2 | ⟨e2, r2⟩) <;>
            rw [hrec] at hx
          · rw [obind_none] at hx
            exact Option.noConfusion hx
          · rw [obind_error] at hx
            cases hx
            simpa [okSpecL] using IHf _ _ hrec
          · rw [obind_ok] at hx
            have hspec := IHf _ _ hrec
            simp only [okSpecS, List.length_cons] at hspec
            have hnode2 : goodB (.BinaryOp node .Mul e2) = true := by
              simp [goodB, hnode, hspec.2]
            have hloop := IHtl _ r2 x hnode2 hx
            rcases x with pe | ⟨e3, r3⟩
            · simpa [okSpecL] using hloop
            · simp only [okSpecL, List.length_cons] at hloop ⊢
              exact ⟨by omega, hloop.2⟩
        case Number v =>
          rcases hrec : parse_factorF n (t :: tl) with _ | (e2 | ⟨e2, r2⟩) <;>
            rw [hrec] at hx
          · rw [obind_none] at hx
            exact Option.noConfusion hx
          · rw [obind_error] at hx
            cases hx
            simpa [okSpecL] using IHf _ _ hrec
          · rw [obind_ok] at hx
            have hspec := IHf _ _ hrec
            simp only [okSpecS, List.length_cons] at hspec
            have hnode2 : goodB (.BinaryOp node .Mul e2) = true := by
              simp [goodB, hnode, hspec.2]
            have hloop := IHtl _ r2 x hnode2 hx
            rcases x with pe | ⟨e3, r3⟩
            · simpa [okSpecL] using hloop
            · simp only [okSpecL, List.length_cons] at hloop ⊢
              exact ⟨by omega, hloop.2⟩
        case Mul =>
          rcases hrec : parse_factorF n tl with _ | (e2 | ⟨e2, r2⟩) <;>
            rw [hrec] at hx
          · rw [obind_none] at hx
            exact Option.noConfusion hx
          · rw [obind_error] at hx
            cases hx
            simpa [okSpecL] using IHf _ _ hrec
          · rw [obind_ok] at hx
            have hspec := IHf _ _ hrec
            simp only [okSpecS] at hspec
            have hnode2 : goodB (.BinaryOp node .Mul e2) = true := by
              simp [goodB, hnode, hspec.2]
            have hloop := IHtl _ r2 x hnode2 hx
            rcases x with pe | ⟨e3, r3⟩
            · simpa [okSpecL] using hloop
            · simp only [okSpecL, List.length_cons] at hloop ⊢
              exact ⟨by omega, hloop.2⟩
        case Div =>
          rcases hrec : parse_factorF n tl with _ | (e2 | ⟨e2, r2⟩) <;>
            rw [hrec] at hx
          · rw [obind_none] at hx
            exact Option.noConfusion hx
          · rw [obind_error] at hx
            cases hx
            simpa [okSpecL] using IHf _ _ hrec
          · rw [obind_ok] at hx
            have hspec := IHf _ _ hrec
            simp only [okSpecS] at hspec
            have hnode2 : goodB (.BinaryOp node .Div e2) = true := by
              simp [goodB, hnode, hspec.2]
            have hloop := IHtl _ r2 x hnode2 hx
            rcases x with pe | ⟨e3, r3⟩
            · simpa [okSpecL] using hloop
            · simp only [okSpecL, List.length_cons] at hloop ⊢
              exact ⟨by omega, hloop.2⟩
        all_goals
          cases hx
          exact ⟨by simp, hnode⟩
    · -- parse_exprF
      intro ts x hx
      simp only [parse_exprF] at hx
      rcases hrec : parse_termF n ts with _ | (e2 | ⟨e2, r2⟩) <;>
        rw [hrec] at hx
      · rw [obind_none] at hx
        exact Option.noConfusion hx
      · rw [obind_error] at hx
        cases hx
        simpa [okSpecS] using IHt ts _ hrec
      · rw [obind_ok] at hx
        have hspec := IHt ts _ hrec
        simp only [okSpecS] at hspec
        have hloop := IHel e2 r2 x hspec.2 hx
        rcases x with pe | ⟨e3, r3⟩
        · simpa [okSpecS, okSpecL] using hloop
        · simp only [okSpecL] at hloop
          simp only [okSpecS]
          exact ⟨by omega, hloop.2⟩
    · -- parse_expr_loopF
      intro node ts x hnode hx
      rcases ts with _ | ⟨t, tl⟩
      · simp only [parse_expr_loopF, cur_nil, Token.eof] at hx
        cases hx
        exact ⟨by simp, hnode⟩
      · simp only [parse_expr_loopF, cur_cons, List.tail_cons] at hx
        rcases htt : t.token_type <;> simp only [htt] at hx
        case Plus =>
          rcases hrec : parse_termF n tl with _ | (e2 | ⟨e2, r2⟩) <;>
            rw [hrec] at hx
          · rw [obind_none] at hx
            exact Option.noConfusion hx
          · rw [obind_error] at hx
            cases hx
            simpa [okSpecL] using IHt _ _ hrec
          · rw [obind_ok] at hx
            have hspec := IHt _ _ hrec
            simp only [okSpecS] at hspec
            have hnode2 : goodB (.BinaryOp node .Plus e2) = true := by
              simp [goodB, hnode, hspec.2]
            have hloop := IHel _ r2 x hnode2 hx
            rcases x with pe | ⟨e3, r3⟩
            · simpa [okSpecL] using hloop
            · simp only [okSpecL, List.length_cons] at hloop ⊢
              exact ⟨by omega, hloop.2⟩
        case Minus =>
          rcases hrec : parse_termF n tl with _ | (e2 | ⟨e2, r2⟩) <;>
            rw [hrec] at hx
          · rw [obind_none] at hx
            exact Option.noConfusion hx
          · rw [obind_error] at hx
            cases hx
            simpa [okSpecL] using IHt _ _ hrec
          · rw [obind_ok] at hx
            have hspec := IHt _ _ hrec
            simp only [okSpecS] at hspec
            have hnode2 : goodB (.BinaryOp node .Minus e2) = true := by
              simp [goodB, hnode, hspec.2]
            have hloop := IHel _ r2 x hnode2 hx
            rcases x with pe | ⟨e3, r3⟩
            · simpa [okSpecL] using hloop
            · simp only [okSpecL, List.length_cons] at hloop ⊢
              exact ⟨by omega, hloop.2⟩
        all_goals
          cases hx
          exact ⟨by simp, hnode⟩

theorem obind_isSome (res : Option (Except ParserError (Expr × List Token)))
    (f : Expr × List Token → Option (Except ParserError (Expr × List Token)))
    (h1 : res.isSome)
    (h2 : ∀ p, res = some (.ok p) → (f p).isSome) : (obind res f).isSome := by
  rcases res with _ | (e | p)
  · simp at h1
  · simp [obind]
  · simpa [obind] using h2 p rfl

/-- Enough fuel makes every fueled parser call defined. The recursion
depth of the Rust parser is bounded by three calls per remaining token. -/
theorem parser_fuel_sufficient : ∀ n : Nat,
    (∀ ts, 3 * ts.length + 1 ≤ n → (parse_factorF n ts).isSome) ∧
    (∀ ts, 3 * ts.length + 2 ≤ n → (parse_termF n ts).isSome) ∧
    (∀ node ts, 3 * ts.length + 2 ≤ n → (parse_term_loopF n node ts).isSome) ∧
    (∀ ts, 3 * ts.length + 3 ≤ n → (parse_exprF n ts).isSome) ∧
    (∀ node ts, 3 * ts.length + 1 ≤ n → (parse_expr_loopF n node ts).isSome) := by
  intro n
  induction n with
  | zero =>
    refine ⟨fun ts hb => ?_, fun ts hb => ?_, fun node ts hb => ?_,
      fun ts hb => ?_, fun node ts hb => ?_⟩ <;> omega
  | succ n ih =>
    obtain ⟨IHf, IHt, IHtl, IHe, IHel⟩ := ih
    refine ⟨?_, ?_, ?_, ?_, ?_⟩
    · intro ts hb
      rcases ts with _ | ⟨t, tl⟩
      · simp [parse_factorF, cur_nil, Token.eof]
      · simp only [List.length_cons] at hb
        simp only [parse_factorF, cur_cons, List.tail_cons]
        rcases htt : t.token_type <;> simp only [htt]
        case Plus =>
          exact obind_isSome _ _ (IHf tl (by omega)) (fun p hp => by simp)
        case Minus =>
          exact obind_isSome _ _ (IHf tl (by omega)) (fun p hp => by simp)
        case Number v =>
          rcases hpf : rustParseFloat v with _ | q <;> simp
        case ParanOpen =>
          rcases hct2 : (cur tl).token_type <;> simp only [hct2]
          case ParanClose => simp
          all_goals
            refine obind_isSome _ _ (IHe tl (by omega)) (fun p hp => ?_)
          all_goals
            rcases hcr : (cur p.2).token_type <;> simp [hcr]
        all_goals simp
    · intro ts hb
      simp only [parse_termF]
      refine obind_isSome _ _ (IHf ts (by omega)) (fun p hp => ?_)
      have hspec := (parser_spec n).1 ts _ hp
      simp only [okSpecS] at hspec
      exact IHtl p.1 p.2 (by omega)
    · intro node ts hb
      rcases ts with _ | ⟨t, tl⟩
      · simp [parse_term_loopF, cur_nil, Token.eof]
      · simp only [List.length_cons] at hb
        simp only [parse_term_loopF, cur_cons, List.tail_cons]
        rcases htt : t.token_type <;> simp only [htt]
        case ParanOpen =>
          refine obind_isSome _ _ (IHf (t :: tl) (by simp; omega)) (fun p hp => ?_)
          have hspec := (parser_spec n).1 _ _ hp
          simp only [okSpecS, List.length_cons] at hspec
          exact IHtl _ p.2 (by omega)
        case Number v =>
          refine obind_isSome _ _ (IHf (t :: tl) (by simp; omega)) (fun p hp => ?_)
          have hspec := (parser_spec n).1 _ _ hp
          simp only [okSpecS, List.length_cons] at hspec
          exact IHtl _ p.2 (by omega)
        case Mul =>
          refine obind_isSome _ _ (IHf tl (by omega)) (fun p hp => ?_)
          have hspec := (parser_spec n).1 _ _ hp
          simp only [okSpecS] at hspec
          exact IHtl _ p.2 (by omega)
        case Div =>
          refine obind_isSome _ _ (IHf tl (by omega)) (fun p hp => ?_)
          have hspec := (parser_spec n).1 _ _ hp
          simp only [okSpecS] at hspec
          exact IHtl _ p.2 (by omega)
        all_goals simp
    · intro ts hb
      simp only [parse_exprF]
      refine obind_isSome _ _ (IHt ts (by omega)) (fun p hp => ?_)
      have hspec := (parser_spec n).2.1 ts _ hp
      simp only [okSpecS] at hspec
      exact IHel p.1 p.2 (by omega)
    · intro node ts hb
      rcases ts with _ | ⟨t, tl⟩
      · simp [parse_expr_loopF, cur_nil, Token.eof]
      · simp only [List.length_cons] at hb
        simp only [parse_expr_loopF, cur_cons, List.tail_cons]
        rcases htt : t.token_type <;> simp only [htt]
        case Plus =>
          refine obind_isSome _ _ (IHt tl (by omega)) (fun p hp => ?_)
          have hspec := (parser_spec n).2.1 _ _ hp
          simp only [okSpecS] at hspec
          exact IHel _ p.2 (by omega)
        case Minus =>
          refine obind_isSome _ _ (IHt tl (by omega)) (fun p hp => ?_)
          have hspec := (parser_spec n).2.1 _ _ hp
          simp only [okSpecS] at hspec
          exact IHel _ p.2 (by omega)
        all_goals simp

theorem parse_exprF_isSome (ts : List Token) :
    (parse_exprF (3 * ts.length + 3) ts).isSome :=
  (parser_fuel_sufficient _).2.2.2.1 ts (Nat.le_refl _)

/-- The result of `Parser::parse_expr` on a token stream, with the fuel that
`parse_exprF_isSome` shows suffices. -/
def parseExprResult (ts : List Token) : Except ParserError (Expr × List Token) :=
  (parse_exprF (3 * ts.length + 3) ts).get (parse_exprF_isSome ts)

theorem parseExprResult_spec (ts : List Token) : okSpecS ts (parseExprResult ts) := by
  have h : parse_exprF (3 * ts.length + 3) ts = some (parseExprResult ts) :=
    (Option.some_get (parse_exprF_isSome ts)).symm
  exact (parser_spec _).2.2.2.1 ts _ h

/-- Rust `Parser::parse` from src/parser.rs: comments and newlines are
filtered out at construction (`Parser::new`); a stream whose current token
is EOF yields `Expr::Empty`; anything else is handed to `parse_expr`, and
any tokens left after the parsed expression are ignored. -/
def parse (ts : List Token) : Except ParserError Expr :=
  let f := filterTokens ts
  match (cur f).token_type with
  | .EOF => .ok .Empty
  | _ =>
    match parseExprResult f with
    | .ok (e, _) => .ok e
    | .error pe => .error pe

theorem parse_ok_good (ts : List Token) :
    ∀ e, parse ts = .ok e → e = .Empty ∨ goodB e = true := by
  intro e he
  unfold parse at he
  rcases hct : (cur (filterTokens ts)).token_type <;> simp only [hct] at he
  case EOF =>
    cases he
    exact Or.inl rfl
  all_goals
    have hspec := parseExprResult_spec (filterTokens ts)
    rcases hr : parseExprResult (filterTokens ts) with pe | ⟨e2, r2⟩ <;>
      rw [hr] at he hspec <;> cases he
  all_goals exact Or.inr hspec.2

theorem parse_error_not_ueof (ts : List Token) :
    ∀ pe, parse ts = .error pe → pe.isUEOF = false := by
  intro pe he
  unfold parse at he
  rcases hct : (cur (filterTokens ts)).token_type <;> simp only [hct] at he
  case EOF => exact Except.noConfusion he
  all_goals
    have hspec := parseExprResult_spec (filterTokens ts)
    rcases hr : parseExprResult (filterTokens ts) with pe2 | ⟨e2, r2⟩ <;>
      rw [hr] at he hspec <;> cases he
  all_goals exact hspec

/-! ## Bytecode, compiler and executor (src/executor.rs) -/

/-- `Instr` from src/executor.rs. -/
inductive Instr where
  | Push (n : ℚ)
  | Add
  | Sub
  | Mul
  | Div
  | Neg
deriving DecidableEq, Repr

/-- `CompileError` from src/executor.rs. The Rust variant stores the Debug
rendering of the operator token; the token type itself is carried here. -/
inductive CompileError where
  | UnsupportedOperator (op : TokenType)
deriving DecidableEq, Repr

/-- `ExecError` from src/executor.rs. -/
inductive ExecError where
  | StackUnderflow (instr : String)
  | DivisionByZero
  | NoResult
  | Other (msg : String)
deriving DecidableEq, Repr

/-- `BytecodeCompiler::compile_expr` from src/executor.rs. The Rust code
appends to a mutable vector; here each node returns the instructions it
emits, children first, in the same order. Children are compiled before the
operator is inspected, as in the source. -/
def compile_expr : Expr → Except CompileError (List Instr)
  | .Number n => .ok [.Push n]
  | .UnaryOp op e =>
    match compile_expr e with
    | .error er => .error er
    | .ok c =>
      match op with
      | .Minus => .ok (c ++ [.Neg])
      | .Plus => .ok c
      | other => .error (.UnsupportedOperator other)
  | .BinaryOp l op r =>
    match compile_expr l with
    | .error er => .error er
    | .ok cl =>
      match compile_expr r with
      | .error er => .error er
      | .ok cr =>
        match op with
        | .Plus => .ok (cl ++ cr ++ [.Add])
        | .Minus => .ok (cl ++ cr ++ [.Sub])
        | .Mul => .ok (cl ++ cr ++ [.Mul])
        | .Div => .ok (cl ++ cr ++ [.Div])
        | other => .error (.UnsupportedOperator other)
  | .Empty => .ok []
  | .EmptyParen => .ok [.Push 0]

/-- `BytecodeCompiler::compile` from src/executor.rs. -/
def compile (expr : Expr) : Except CompileError (List Instr) := compile_expr expr

/-- The instruction loop of `SimpleExecutor::execute`: the stack is a list
with its head on top. Each binary instruction pops the right operand `b`
first, then the left operand `a`; `Div` checks `b = 0` after popping `b`
and before popping `a`, exactly as in the source. -/
def execGo : List Instr → List ℚ → Except ExecError (List ℚ)
  | [], s => .ok s
  | .Push n :: rest, s => execGo rest (n :: s)
  | .Add :: rest, s =>
    match s with
    | b :: a :: s2 => execGo rest ((a + b) :: s2)
    | _ => .error (.StackUnderflow "Add")
  | .Sub :: rest, s =>
    match s with
    | b :: a :: s2 => execGo rest ((a - b) :: s2)
    | _ => .error (.StackUnderflow "Sub")
  | .Mul :: rest, s =>
    match s with
    | b :: a :: s2 => execGo rest ((a * b) :: s2)
    | _ => .error (.StackUnderflow "Mul")
  | .Div :: rest, s =>
    match s with
    | b :: s2 =>
      if b = 0 then .error .DivisionByZero
      else
        match s2 with
        | a :: s3 => execGo rest ((a / b) :: s3)
        | [] => .error (.StackUnderflow "Div")
    | [] => .error (.StackUnderflow "Div")
  | .Neg :: rest, s =>
    match s with
    | a :: s2 => execGo rest ((-a) :: s2)
    | [] => .error (.StackUnderflow "Neg")

/-- `SimpleExecutor::execute` from src/executor.rs: run the instructions on
an empty stack, then pop the result; an empty final stack is `NoResult`.
Extra values below the top are ignored, as in the source. -/
def execute (instructions : List Instr) : Except ExecError ℚ :=
  match execGo instructions [] with
  | .error e => .error e
  | .ok s =>
    match s with
    | v :: _ => .ok v
    | [] => .error .NoResult

/-! ## The orchestrator (src/executor.rs, `evaluate_lines`) -/

/-- `EvalError` from src/executor.rs. -/
inductive EvalError where
  | Parse (e : ParserError) (line_str : List Char) (offset : Nat)
  | Compile (e : CompileError) (input : List Char)
  | Exec (e : ExecError) (input : List Char)
deriving DecidableEq, Repr

/-- Split at every newline character; `n` newlines give `n + 1` pieces. -/
def splitNl : List Char → List (List Char)
  | [] => [[]]
  | c :: rest =>
    if c = '\n' then [] :: splitNl rest
    else
      match splitNl rest with
      | [] => [[c]]
      | p :: ps => (c :: p) :: ps

/-- Strip one trailing carriage return, as `str::lines` does per line. -/
def stripCR (l : List Char) : List Char :=
  if l.getLast? = some '\r' then l.dropLast else l

/-- Rust `str::lines`: pieces between newlines, a final line ending being
optional, with no trailing empty line and carriage returns stripped. -/
def linesOf (input : List Char) : List (List Char) :=
  if input = [] then []
  else
    (if input.getLast? = some '\n' then (splitNl input).dropLast
     else splitNl input).map stripCR

/-- Comment removal of the orchestrator: everything before the first
semicolon (`raw_line.split(';').next()`). -/
def stripComment (l : List Char) : List Char := l.takeWhile (fun c => c ≠ ';')

/-- The loop state of the statement-joining phase of `evaluate_lines`:
the continuation buffer, the recorded 1-based start line of the statement
being accumulated, and the statements already assembled. -/
structure JoinSt where
  buf : List Char
  startLn : Nat
  acc : List (List Char × Nat)
deriving DecidableEq, Repr

/-- One iteration of the line loop of `evaluate_lines`, for the physical
line `p.2` with 0-based index `p.1`: strip the comment, trim, record the
start line if the buffer is empty; a line whose trimmed content ends with a
backslash drops the backslash and appends the re-trimmed remainder plus one
space to the buffer; otherwise the buffer plus this line is flushed as one
logical statement, unless blank. -/
def joinStep (st : JoinSt) (p : Nat × List Char) : JoinSt :=
  let t := trim (stripComment p.2)
  let start := if st.buf = [] then p.1 + 1 else st.startLn
  if t.getLast? = some '\\' then
    ⟨st.buf ++ trim t.dropLast ++ [' '], start, st.acc⟩
  else
    let buf2 := st.buf ++ t
    if trim buf2 = [] then ⟨[], 0, st.acc⟩
    else ⟨[], 0, st.acc ++ [(buf2, start)]⟩

/-- The statement-joining phase of `evaluate_lines`: each retained logical
statement with the 1-based number of the physical line that started it. A
buffer left by a trailing continuation is flushed at the end unless blank. -/
def joinLines (input : List Char) : List (List Char × Nat) :=
  let fin := (linesOf input).enum.foldl joinStep ⟨[], 0, []⟩
  if fin.buf ≠ [] ∧ trim fin.buf ≠ [] then fin.acc ++ [(fin.buf, fin.startLn)]
  else fin.acc

/-- The per-statement body of the evaluation loop of `evaluate_lines`: zero
or one output entries for the logical statement `p.1` starting at physical
line `p.2`. The two skips of the source are kept: a blank statement is
skipped (unreachable after `joinLines`), and a statement compiling to no
instructions executes nothing and produces no entry. -/
def evalStatementEntries (p : List Char × Nat) : List (Except EvalError (ℚ × List Char)) :=
  let trimmed := trim p.1
  if trimmed = [] then []
  else
    match tokenize trimmed with
    | .error (.UnexpectedCharacter c l co) =>
      [.error (.Parse (.TokenizerError c l co) p.1 p.2)]
    | .ok ts =>
      match parse ts with
      | .ok ast =>
        match compile ast with
        | .ok code =>
          if code = [] then []
          else
            match execute code with
            | .ok v => [.ok (v, p.1)]
            | .error e => [.error (.Exec e p.1)]
        | .error e => [.error (.Compile e p.1)]
      | .error e => [.error (.Parse e p.1 p.2)]

/-- `evaluate_lines` from src/executor.rs: join physical lines into logical
statements, then run each through tokenize, parse, compile and execute,
collecting one entry per statement, in order, never aborting on a failure. -/
def evaluate_lines (input : List Char) : List (Except EvalError (ℚ × List Char)) :=
  ((joinLines input).map evalStatementEntries).flatten

/-- The straight-line version of `evalStatementEntries`: exactly one entry,
with no skips. `evaluate_lines_eq_map` shows `evaluate_lines` produces
exactly this for every retained logical statement. -/
def evalStatement1 (p : List Char × Nat) : Except EvalError (ℚ × List Char) :=
  match tokenize (trim p.1) with
  | .error (.UnexpectedCharacter c l co) =>
    .error (.Parse (.TokenizerError c l co) p.1 p.2)
  | .ok ts =>
    match parse ts with
    | .ok ast =>
      match compile ast with
      | .ok code =>
        match execute code with
        | .ok v => .ok (v, p.1)
        | .error e => .error (.Exec e p.1)
      | .error e => .error (.Compile e p.1)
    | .error e => .error (.Parse e p.1 p.2)

/-! ## Reference semantics and compiler correctness -/

/-- The reference big-step evaluation of an expression: the value
`execute (compile e)` is proved to produce (`compile_good`). Division by
zero fails exactly when the right operand is zero; `Empty` evaluates to
nothing, matching the empty instruction sequence it compiles to. -/
def evalE : Expr → Except ExecError ℚ
  | .Number n => .ok n
  | .UnaryOp op e =>
    match evalE e with
    | .error er => .error er
    | .ok v =>
      match op with
      | .Minus => .ok (-v)
      | .Plus => .ok v
      | _ => .error (.Other "unsupported operator")
  | .BinaryOp l op r =>
    match evalE l with
    | .error er => .error er
    | .ok a =>
      match evalE r with
      | .error er => .error er
      | .ok b =>
        match op with
        | .Plus => .ok (a + b)
        | .Minus => .ok (a - b)
        | .Mul => .ok (a * b)
        | .Div => if b = 0 then .error .DivisionByZero else .ok (a / b)
        | _ => .error (.Other "unsupported operator")
  | .Empty => .error .NoResult
  | .EmptyParen => .ok 0

/-- Compiler correctness for parser-producible expressions: compilation
succeeds with a nonempty sequence, and running that sequence followed by
any continuation on any stack either pushes the reference value or stops
with the reference error. -/
theorem compile_good : ∀ e : Expr, goodB e = true →
    ∃ c, compile_expr e = .ok c ∧ c ≠ [] ∧
      ∀ k s, execGo (c ++ k) s =
        (match evalE e with
         | .ok v => execGo k (v :: s)
         | .error er => .error er) := by
  intro e
  induction e with
  | Number n =>
    intro h
    exact ⟨[.Push n], rfl, by simp, fun k s => by simp [execGo, evalE]⟩
  | UnaryOp op e ih =>
    intro h
    simp only [goodB, Bool.and_eq_true] at h
    obtain ⟨c, hc, hne, hsem⟩ := ih h.2
    rcases op <;> simp at h
    case Plus =>
      refine ⟨c, by simp [compile_expr, hc], hne, fun k s => ?_⟩
      have h1 := hsem k s
      rcases hev : evalE e with er | v <;> rw [hev] at h1 <;> simp at h1 <;>
        simp [evalE, hev, h1]
    case Minus =>
      refine ⟨c ++ [.Neg], by simp [compile_expr, hc], by simp, fun k s => ?_⟩
      have h1 := hsem ([Instr.Neg] ++ k) s
      rcases hev : evalE e with er | v <;> rw [hev] at h1 <;> simp at h1 <;>
        simp [evalE, hev, List.append_assoc, h1, execGo]
  | BinaryOp l op r ihl ihr =>
    intro h
    simp only [goodB, Bool.and_eq_true] at h
    obtain ⟨cl, hcl, hnel, hseml⟩ := ihl h.1.2
    obtain ⟨cr, hcr, hner, hsemr⟩ := ihr h.2
    rcases op <;> simp at h
    case Plus =>
      refine ⟨cl ++ cr ++ [.Add], by simp [compile_expr, hcl, hcr], by simp, fun k s => ?_⟩
      have h1 := hseml (cr ++ ([Instr.Add] ++ k)) s
      rcases hev1 : evalE l with er | a <;> rw [hev1] at h1 <;> simp at h1
      · simp [evalE, hev1, List.append_assoc, h1]
      · have h2 := hsemr ([Instr.Add] ++ k) (a :: s)
        rcases hev2 : evalE r with er | b <;> rw [hev2] at h2 <;> simp at h2 <;>
          simp [evalE, hev1, hev2, List.append_assoc, h1, h2, execGo]
    case Minus =>
      refine ⟨cl ++ cr ++ [.Sub], by simp [compile_expr, hcl, hcr], by simp, fun k s => ?_⟩
      have h1 := hseml (cr ++ ([Instr.Sub] ++ k)) s
      rcases hev1 : evalE l with er | a <;> rw [hev1] at h1 <;> simp at h1
      · simp [evalE, hev1, List.append_assoc, h1]
      · have h2 := hsemr ([Instr.Sub] ++ k) (a :: s)
        rcases hev2 : evalE r with er | b <;> rw [hev2] at h2 <;> simp at h2 <;>
          simp [evalE, hev1, hev2, List.append_assoc, h1, h2, execGo]
    case Mul =>
      refine ⟨cl ++ cr ++ [.Mul], by simp [compile_expr, hcl, hcr], by simp, fun k s => ?_⟩
      have h1 := hseml (cr ++ ([Instr.Mul] ++ k)) s
      rcases hev1 : evalE l with er | a <;> rw [hev1] at h1 <;> simp at h1
      · simp [evalE, hev1, List.append_assoc, h1]
      · have h2 := hsemr ([Instr.Mul] ++ k) (a :: s)
        rcases hev2 : evalE r with er | b <;> rw [hev2] at h2 <;> simp at h2 <;>
          simp [evalE, hev1, hev2, List.append_assoc, h1, h2, execGo]
    case Div =>
      refine ⟨cl ++ cr ++ [.Div], by simp [compile_expr, hcl, hcr], by simp, fun k s => ?_⟩
      have h1 := hseml (cr ++ ([Instr.Div] ++ k)) s
      rcases hev1 : evalE l with er | a <;> rw [hev1] at h1 <;> simp at h1
      · simp [evalE, hev1, List.append_assoc, h1]
      · have h2 := hsemr ([Instr.Div] ++ k) (a :: s)
        rcases hev2 : evalE r with er | b <;> rw [hev2] at h2 <;> simp at h2
        · simp [evalE, hev1, hev2, List.append_assoc, h1, h2]
        · by_cases hb : b = 0 <;>
            simp [evalE, hev1, hev2, List.append_assoc, h1, h2, execGo, hb]
  | Empty => intro h; simp [goodB] at h
  | EmptyParen =>
    intro h
    exact ⟨[.Push 0], rfl, by simp, fun k s => by simp [execGo, evalE]⟩

theorem evalE_error_div : ∀ e : Expr, goodB e = true →
    ∀ er, evalE e = .error er → er = .DivisionByZero := by
  intro e
  induction e with
  | Number n => intro _ er h; simp [evalE] at h
  | UnaryOp op e ih =>
    intro hg er h
    simp only [goodB, Bool.and_eq_true] at hg
    simp only [evalE] at h
    rcases hev : evalE e with er2 | v <;> rw [hev] at h
    · cases h
      exact ih hg.2 er hev
    · rcases op <;> simp at h <;> simp at hg
  | BinaryOp l op r ihl ihr =>
    intro hg er h
    simp only [goodB, Bool.and_eq_true] at hg
    simp only [evalE] at h
    rcases hev1 : evalE l with er2 | a <;> rw [hev1] at h
    · cases h
      exact ihl hg.1.2 er hev1
    · rcases hev2 : evalE r with er3 | b <;> rw [hev2] at h
      · cases h
        exact ihr hg.2 er hev2
      · rcases op
        case Plus => simp at h
        case Minus => simp at h
        case Mul => simp at h
        case Div =>
          by_cases hb : b = 0
          · simp [hb] at h
            first
            | exact h
            | exact h.symm
          · simp [hb] at h
        all_goals simp at hg
  | Empty => intro hg; simp [goodB] at hg
  | EmptyParen => intro _ er h; simp [evalE] at h

/-- `SimpleExecutor::execute` on a compiled parser-producible expression
computes exactly the reference value. -/
theorem execute_compile (e : Expr) (hg : goodB e = true) :
    ∃ c, compile e = .ok c ∧ c ≠ [] ∧ execute c = evalE e := by
  obtain ⟨c, hc, hne, hsem⟩ := compile_good e hg
  refine ⟨c, hc, hne, ?_⟩
  have h1 := hsem [] []
  rw [List.append_nil] at h1
  unfold execute
  rw [h1]
  rcases hev : evalE e with er | v <;> simp [execGo]

/-! ## Aggregate facts about the pipeline stages -/

/-- `tokenize_spec`: the tokenizer-level form of `tokenizeAuxF_spec`. -/
theorem tokenize_spec (l : List Char) :
    (∀ ts, tokenize l = .ok ts →
      (∃ pre L C, ts = pre ++ [Token.eof L C] ∧ ∀ t ∈ pre, t.token_type ≠ .EOF) ∧
      ((';' ∉ l) → ∀ t ∈ ts, ∀ con, t.token_type ≠ .Comment con) ∧
      (('\n' ∉ l) → ∀ t ∈ ts, t.token_type ≠ .Newline) ∧
      ((∃ c ∈ l, isWhitespaceR c = false) → ∃ t ∈ ts, t.token_type ≠ .EOF)) ∧
    (∀ e, tokenize l = .error e →
      ∃ c L C, e = .UnexpectedCharacter c L C ∧ recognizedStart c = false ∧ c ∈ l) := by
  have hsome : tokenizeAuxF l.length l 0 0 = some (tokenize l) :=
    (Option.some_get (tokenize_fuel_sufficient l.length l 0 0 (Nat.le_refl _))).symm
  constructor
  · intro ts h
    exact (tokenizeAuxF_spec l.length l 0 0).1 ts (by rw [hsome, h])
  · intro e h
    exact (tokenizeAuxF_spec l.length l 0 0).2 e (by rw [hsome, h])

/-- Every element of a `takeWhile` result satisfies the predicate. -/
theorem takeWhile_mem_pred (p : Char → Bool) : ∀ (l : List Char) (c : Char),
    c ∈ l.takeWhile p → p c = true := by
  intro l
  induction l with
  | nil => intro c h; simp at h
  | cons a tl ih =>
    intro c h
    cases hpa : p a with
    | false => simp [List.takeWhile_cons, hpa] at h
    | true =>
      rw [List.takeWhile_cons, if_pos hpa] at h
      rcases List.mem_cons.mp h with rfl | h2
      · exact hpa
      · exact ih c h2

theorem stripComment_subset (l : List Char) : stripComment l ⊆ l :=
  (List.takeWhile_sublist _).subset

theorem stripComment_no_semi (l : List Char) : ';' ∉ stripComment l := by
  intro hm
  have h := takeWhile_mem_pred _ l ';' hm
  simp at h

theorem splitNl_ne_nil (l : List Char) : splitNl l ≠ [] := by
  cases l with
  | nil => simp [splitNl]
  | cons c cs =>
    simp only [splitNl]
    split
    · simp
    · split <;> simp

/-- No piece produced by splitting at newlines contains a newline. -/
theorem splitNl_no_nl : ∀ (l p : List Char), p ∈ splitNl l → '\n' ∉ p := by
  intro l
  induction l with
  | nil =>
    intro p hp
    simp [splitNl] at hp
    subst hp
    simp
  | cons c cs ih =>
    intro p hp
    simp only [splitNl] at hp
    by_cases hc : c = '\n'
    · rw [if_pos hc] at hp
      rcases List.mem_cons.mp hp with rfl | h2
      · simp
      · exact ih p h2
    · rw [if_neg hc] at hp
      rcases hsp : splitNl cs with _ | ⟨q, qs⟩
      · exact absurd hsp (splitNl_ne_nil cs)
      · simp only [hsp] at hp
        rcases List.mem_cons.mp hp with rfl | h2
        · intro hm
          rcases List.mem_cons.mp hm with h3 | h3
          · exact hc h3.symm
          · exact ih q (by rw [hsp]; exact List.mem_cons_self q qs) h3
        · exact ih p (by rw [hsp]; exact List.mem_cons_of_mem q h2)

theorem stripCR_subset (l : List Char) : stripCR l ⊆ l := by
  unfold stripCR
  split
  · exact (List.dropLast_sublist l).subset
  · exact fun x hx => hx

/-- No physical line handed to the statement joiner contains a newline. -/
theorem linesOf_no_nl (input : List Char) : ∀ p ∈ linesOf input, '\n' ∉ p := by
  intro p hp
  unfold linesOf at hp
  split at hp
  · simp at hp
  · rw [List.mem_map] at hp
    obtain ⟨q, hq, rfl⟩ := hp
    have hqin : q ∈ splitNl input := by
      split at hq
      · exact (List.dropLast_sublist _).subset hq
      · exact hq
    intro hm
    exact splitNl_no_nl input q hqin (stripCR_subset q hm)

/-- The invariant of every statement `joinLines` retains: its trimmed text
is non-blank, and its raw text has no semicolon and no newline, so the
per-statement skips of the evaluation loop never fire on it. -/
def StmtOk (q : List Char × Nat) : Prop :=
  trim q.1 ≠ [] ∧ ';' ∉ q.1 ∧ '\n' ∉ q.1

/-- The loop invariant of the statement joiner: the continuation buffer has
no semicolon and no newline, and every assembled statement is `StmtOk`. -/
def JoinInv (st : JoinSt) : Prop :=
  ';' ∉ st.buf ∧ '\n' ∉ st.buf ∧ ∀ q ∈ st.acc, StmtOk q

theorem joinStep_inv (st : JoinSt) (p : Nat × List Char)
    (hst : JoinInv st) (hln : '\n' ∉ p.2) : JoinInv (joinStep st p) := by
  obtain ⟨hb1, hb2, hacc⟩ := hst
  have hts : ';' ∉ trim (stripComment p.2) :=
    fun hm => stripComment_no_semi p.2 (trim_subset _ hm)
  have htn : '\n' ∉ trim (stripComment p.2) :=
    fun hm => hln (stripComment_subset p.2 (trim_subset _ hm))
  simp only [joinStep]
  by_cases hbs : (trim (stripComment p.2)).getLast? = some '\\'
  · rw [if_pos hbs]
    refine ⟨?_, ?_, hacc⟩
    · intro hm
      simp only [List.mem_append, List.mem_singleton] at hm
      rcases hm with (hm | hm) | hm
      · exact hb1 hm
      · exact hts ((List.dropLast_sublist _).subset (trim_subset _ hm))
      · exact absurd hm (by decide)
    · intro hm
      simp only [List.mem_append, List.mem_singleton] at hm
      rcases hm with (hm | hm) | hm
      · exact hb2 hm
      · exact htn ((List.dropLast_sublist _).subset (trim_subset _ hm))
      · exact absurd hm (by decide)
  · rw [if_neg hbs]
    by_cases hbl : trim (st.buf ++ trim (stripComment p.2)) = []
    · rw [if_pos hbl]
      exact ⟨by simp, by simp, hacc⟩
    · rw [if_neg hbl]
      refine ⟨by simp, by simp, ?_⟩
      intro q hq
      rcases List.mem_append.mp hq with hq1 | hq2
      · exact hacc q hq1
      · simp only [List.mem_singleton] at hq2
        subst hq2
        refine ⟨hbl, ?_, ?_⟩
        · intro hm
          rcases List.mem_append.mp hm with hm1 | hm2
          · exact hb1 hm1
          · exact hts hm2
        · intro hm
          rcases List.mem_append.mp hm with hm1 | hm2
          · exact hb2 hm1
          · exact htn hm2

theorem foldl_joinStep_inv : ∀ (ls : List (Nat × List Char)) (st : JoinSt),
    JoinInv st → (∀ q ∈ ls, '\n' ∉ q.2) → JoinInv (ls.foldl joinStep st) := by
  intro ls
  induction ls with
  | nil => intro st h _; exact h
  | cons a tl ih =>
    intro st h hl
    rw [List.foldl_cons]
    exact ih (joinStep st a) (joinStep_inv st a h (hl a (List.mem_cons_self a tl)))
      (fun q hq => hl q (List.mem_cons_of_mem a hq))

/-- Every statement retained by `joinLines` satisfies `StmtOk`. -/
theorem joinLines_inv (input : List Char) : ∀ q ∈ joinLines input, StmtOk q := by
  have hlines : ∀ q ∈ (linesOf input).enum, '\n' ∉ q.2 := by
    intro q hq
    have h2 : q.2 ∈ linesOf input := by
      have h3 := List.enum_map_snd (linesOf input)
      rw [← h3]
      exact List.mem_map_of_mem Prod.snd hq
    exact linesOf_no_nl input q.2 h2
  have hfin := foldl_joinStep_inv (linesOf input).enum ⟨[], 0, []⟩
    ⟨by simp, by simp, by intro q hq; simp at hq⟩ hlines
  intro q hq
  simp only [joinLines] at hq
  split at hq
  · rcases List.mem_append.mp hq with hq1 | hq2
    · exact hfin.2.2 q hq1
    · simp only [List.mem_singleton] at hq2
      subst hq2
      rename_i hcond
      exact ⟨hcond.2, hfin.1, hfin.2.1⟩
  · exact hfin.2.2 q hq

/-- `Parser::parse` yields `Empty` only when the current token is EOF. -/
theorem parse_ok_empty (ts : List Token) (h : parse ts = .ok .Empty) :
    (cur (filterTokens ts)).token_type = .EOF := by
  unfold parse at h
  rcases hct : (cur (filterTokens ts)).token_type <;> simp only [hct] at h
  case EOF => rfl
  all_goals {
    have hspec := parseExprResult_spec (filterTokens ts)
    rcases hr : parseExprResult (filterTokens ts) with pe | ⟨e2, r2⟩ <;>
      rw [hr] at h hspec <;> cases h
    simp [okSpecS, goodB] at hspec
  }

/-- `Parser::new` changes nothing on a stream without comment or newline
tokens. -/
theorem filterTokens_id (ts : List Token)
    (h1 : ∀ t ∈ ts, ∀ con, t.token_type ≠ .Comment con)
    (h2 : ∀ t ∈ ts, t.token_type ≠ .Newline) :
    filterTokens ts = ts := by
  unfold filterTokens
  rw [List.filter_eq_self]
  intro t ht
  cases htt : t.token_type <;>
    first
    | rfl
    | exact absurd htt (h1 t ht _)
    | exact absurd htt (h2 t ht)

/-- A token stream that ends in its only EOF token and has another token
has a non-EOF current token. -/
theorem cur_ne_eof_of_spec (ts : List Token) (pre : List Token) (L C : Nat)
    (hdec : ts = pre ++ [Token.eof L C])
    (hpre : ∀ t ∈ pre, t.token_type ≠ .EOF)
    (hnb : ∃ t ∈ ts, t.token_type ≠ .EOF) :
    (cur ts).token_type ≠ .EOF := by
  rcases pre with _ | ⟨t0, pre2⟩
  · obtain ⟨t, ht, htne⟩ := hnb
    rw [hdec] at ht
    simp at ht
    subst ht
    exact absurd rfl htne
  · rw [hdec, List.cons_append, cur_cons]
    exact hpre t0 (List.mem_cons_self t0 pre2)

/-- On a `StmtOk` statement neither skip of the evaluation loop fires: the
entry list is exactly the one entry of the straight-line evaluator. -/
theorem evalStatementEntries_eq (q : List Char × Nat) (h : StmtOk q) :
    evalStatementEntries q = [evalStatement1 q] := by
  obtain ⟨hnb, hsemi, hnl⟩ := h
  simp only [evalStatementEntries, evalStatement1]
  rw [if_neg hnb]
  rcases htok : tokenize (trim q.1) with ⟨c, l, co⟩ | ts
  · simp only [htok]
  · simp only [htok]
    obtain ⟨⟨pre, L, C, hdec, hpre⟩, hcom, hnlt, hnbt⟩ := (tokenize_spec (trim q.1)).1 ts htok
    have hsemit : ';' ∉ trim q.1 := fun hm => hsemi (trim_subset _ hm)
    have hnlt2 : '\n' ∉ trim q.1 := fun hm => hnl (trim_subset _ hm)
    have hfid : filterTokens ts = ts := filterTokens_id ts (hcom hsemit) (hnlt hnlt2)
    have hcur : (cur (filterTokens ts)).token_type ≠ .EOF := by
      rw [hfid]
      exact cur_ne_eof_of_spec ts pre L C hdec hpre (hnbt (trim_ne_nil_exists_nonws hnb))
    rcases hp : parse ts with pe | ast
    · simp only [hp]
    · simp only [hp]
      have hgood : goodB ast = true := by
        rcases parse_ok_good ts ast hp with he | hg
        · exact absurd (parse_ok_empty ts (he ▸ hp)) hcur
        · exact hg
      obtain ⟨code, hcomp, hcne, hexec⟩ := execute_compile ast hgood
      simp only [hcomp]
      rw [if_neg hcne]
      rcases hex : execute code with er | v
      all_goals simp only [hex]

theorem evaluate_lines_entries (ls : List (List Char × Nat)) (h : ∀ q ∈ ls, StmtOk q) :
    (ls.map evalStatementEntries).flatten = ls.map evalStatement1 := by
  induction ls with
  | nil => rfl
  | cons a tl ih =>
    simp only [List.map_cons, List.flatten_cons]
    rw [evalStatementEntries_eq a (h a (List.mem_cons_self a tl)),
      ih (fun q hq => h q (List.mem_cons_of_mem a hq))]
    rfl

/-- `evaluate_lines` produces exactly one entry per retained logical
statement, in order: it is the map of the straight-line evaluator over the
joined statements. -/
theorem evaluate_lines_eq_map (input : List Char) :
    evaluate_lines input = (joinLines input).map evalStatement1 := by
  unfold evaluate_lines
  exact evaluate_lines_entries (joinLines input) (joinLines_inv input)

/-- `Parser::parse` ignores the tokens left over after a parsed expression:
whatever `parse_expr` leaves unconsumed, the expression alone is returned. -/
theorem parse_ignores_rest (ts : List Token)
    (hne : (cur (filterTokens ts)).token_type ≠ .EOF)
    (e : Expr) (r : List Token)
    (h : parseExprResult (filterTokens ts) = .ok (e, r)) :
    parse ts = .ok e := by
  unfold parse
  rcases hct : (cur (filterTokens ts)).token_type <;> simp only [hct] <;>
    first
    | exact absurd hct hne
    | rw [h]


/-! ## The conventional value of an arithmetic token stream

The definitions of this section are written from the spec's words, not
from the source: they give "the conventional mathematical value under
standard operator precedence" of a token stream, against which the
program's parser, compiler and executor are compared (claim C1). A factor
is a numeric literal, a parenthesized expression or a unary `+`/`-`
applied to a factor; `*`, `/` and implicit multiplication (a parenthesis
or a number directly following a factor) bind tighter than binary `+` and
`-`; both levels associate to the left, which the accumulator loops below
make explicit; division is conventionally defined only for a nonzero
divisor. `none` means the stream does not start with a well-formed
expression (or the fuel ran out; `conventionalValue` supplies enough). -/

mutual

def conv_factorF : Nat → List Token → Option (ℚ × List Token)
  | 0, _ => none
  | n+1, ts =>
    match (cur ts).token_type with
    | .Plus =>
      match conv_factorF n ts.tail with
      | none => none
      | some (v, r) => some (v, r)
    | .Minus =>
      match conv_factorF n ts.tail with
      | none => none
      | some (v, r) => some (-v, r)
    | .Number s =>
      match rustParseFloat s with
      | some q => some (q, ts.tail)
      | none => none
    | .ParanOpen =>
      match (cur ts.tail).token_type with
      | .ParanClose => none
      | _ =>
        match conv_exprF n ts.tail with
        | none => none
        | some (v, r) =>
          match (cur r).token_type with
          | .ParanClose => some (v, r.tail)
          | _ => none
    | _ => none

def conv_termF : Nat → List Token → Option (ℚ × List Token)
  | 0, _ => none
  | n+1, ts =>
    match conv_factorF n ts with
    | none => none
    | some (v, r) => conv_term_loopF n v r

def conv_term_loopF : Nat → ℚ → List Token → Option (ℚ × List Token)
  | 0, _, _ => none
  | n+1, acc, ts =>
    match (cur ts).token_type with
    | .ParanOpen | .Number _ =>
      match conv_factorF n ts with
      | none => none
      | some (v, r) => conv_term_loopF n (acc * v) r
    | .Mul =>
      match conv_factorF n ts.tail with
      | none => none
      | some (v, r) => conv_term_loopF n (acc * v) r
    | .Div =>
      match conv_factorF n ts.tail with
      | none => none
      | some (v, r) => if v = 0 then none else conv_term_loopF n (acc / v) r
    | _ => some (acc, ts)

def conv_exprF : Nat → List Token → Option (ℚ × List Token)
  | 0, _ => none
  | n+1, ts =>
    match conv_termF n ts with
    | none => none
    | some (v, r) => conv_expr_loopF n v r

def conv_expr_loopF : Nat → ℚ → List Token → Option (ℚ × List Token)
  | 0, _, _ => none
  | n+1, acc, ts =>
    match (cur ts).token_type with
    | .Plus =>
      match conv_termF n ts.tail with
      | none => none
      | some (v, r) => conv_expr_loopF n (acc + v) r
    | .Minus =>
      match conv_termF n ts.tail with
      | none => none
      | some (v, r) => conv_expr_loopF n (acc - v) r
    | _ => some (acc, ts)

end

/-- The conventional value of the longest well-formed expression prefix of
a token stream, with the remaining tokens; the fuel is the parser's. -/
def conventionalValue (ts : List Token) : Option (ℚ × List Token) :=
  conv_exprF (3 * ts.length + 3) ts

/-- The parser realizes standard precedence: whenever the conventional
reading assigns a value to a prefix of the stream, the program's parser
accepts exactly that prefix, and the expression it builds evaluates to the
conventional value. Each conjunct also records that the first token of a
conventionally valued stream is not EOF. -/
theorem conv_parse : ∀ n : Nat,
    (∀ ts v r, conv_factorF n ts = some (v, r) →
      (cur ts).token_type ≠ .EOF ∧
      ∃ e, parse_factorF n ts = some (.ok (e, r)) ∧ evalE e = .ok v) ∧
    (∀ ts v r, conv_termF n ts = some (v, r) →
      (cur ts).token_type ≠ .EOF ∧
      ∃ e, parse_termF n ts = some (.ok (e, r)) ∧ evalE e = .ok v) ∧
    (∀ acc node ts v r, conv_term_loopF n acc ts = some (v, r) →
      evalE node = .ok acc →
      ∃ e, parse_term_loopF n node ts = some (.ok (e, r)) ∧ evalE e = .ok v) ∧
    (∀ ts v r, conv_exprF n ts = some (v, r) →
      (cur ts).token_type ≠ .EOF ∧
      ∃ e, parse_exprF n ts = some (.ok (e, r)) ∧ evalE e = .ok v) ∧
    (∀ acc node ts v r, conv_expr_loopF n acc ts = some (v, r) →
      evalE node = .ok acc →
      ∃ e, parse_expr_loopF n node ts = some (.ok (e, r)) ∧ evalE e = .ok v) := by
  intro n
  induction n with
  | zero =>
    refine ⟨fun ts v r h => ?_, fun ts v r h => ?_, fun acc node ts v r h _ => ?_,
      fun ts v r h => ?_, fun acc node ts v r h _ => ?_⟩ <;>
      exact Option.noConfusion h
  | succ n ih =>
    obtain ⟨IHf, IHt, IHtl, IHe, IHel⟩ := ih
    refine ⟨?_, ?_, ?_, ?_, ?_⟩
    · -- conv_factorF
      intro ts v r h
      rcases ts with _ | ⟨t, tl⟩
      · simp only [conv_factorF, cur_nil, Token.eof] at h
        exact Option.noConfusion h
      · simp only [conv_factorF, cur_cons, List.tail_cons] at h
        rcases htt : t.token_type <;> simp only [htt] at h
        case Plus =>
          rcases hrec : conv_factorF n tl with _ | ⟨v2, r2⟩ <;> rw [hrec] at h <;>
            simp at h
          obtain ⟨h1, h2⟩ := h
          subst h1
          subst h2
          obtain ⟨hne2, e2, hpf2, hev2⟩ := IHf tl v2 r2 hrec
          refine ⟨by rw [cur_cons, htt]; simp, .UnaryOp .Plus e2, ?_, ?_⟩
          · simp only [parse_factorF, cur_cons, List.tail_cons, htt]
            rw [hpf2, obind_ok]
          · simp [evalE, hev2]
        case Minus =>
          rcases hrec : conv_factorF n tl with _ | ⟨v2, r2⟩ <;> rw [hrec] at h <;>
            simp at h
          obtain ⟨h1, h2⟩ := h
          subst h1
          subst h2
          obtain ⟨hne2, e2, hpf2, hev2⟩ := IHf tl v2 r2 hrec
          refine ⟨by rw [cur_cons, htt]; simp, .UnaryOp .Minus e2, ?_, ?_⟩
          · simp only [parse_factorF, cur_cons, List.tail_cons, htt]
            rw [hpf2, obind_ok]
          · simp [evalE, hev2]
        case Number s =>
          rcases hpf : rustParseFloat s with _ | q <;> rw [hpf] at h <;> simp at h
          obtain ⟨h1, h2⟩ := h
          subst h1
          subst h2
          refine ⟨by rw [cur_cons, htt]; simp, .Number q, ?_, rfl⟩
          simp only [parse_factorF, cur_cons, List.tail_cons, htt, hpf]
        case ParanOpen =>
          rcases hct2 : (cur tl).token_type <;> simp only [hct2] at h
          case ParanClose => exact Option.noConfusion h
          all_goals
            rcases hrec : conv_exprF n tl with _ | ⟨v2, r2⟩ <;> rw [hrec] at h <;>
              simp at h
          all_goals
            obtain ⟨hne2, e2, hpe2, hev2⟩ := IHe tl v2 r2 hrec
          all_goals
            rcases hcr : (cur r2).token_type <;> simp only [hcr] at h
          all_goals first
            | exact Option.noConfusion h
            | (simp only [Option.some.injEq, Prod.mk.injEq] at h
               obtain ⟨h1, h2⟩ := h
               subst h1
               subst h2
               refine ⟨by rw [cur_cons, htt]; simp, e2, ?_, hev2⟩
               simp only [parse_factorF, cur_cons, List.tail_cons, htt, hct2]
               rw [hpe2, obind_ok]
               simp only [hcr])
        all_goals exact Option.noConfusion h
    · -- conv_termF
      intro ts v r h
      simp only [conv_termF] at h
      rcases hrec : conv_factorF n ts with _ | ⟨v2, r2⟩ <;> rw [hrec] at h <;> simp at h
      obtain ⟨hne2, e2, hpf2, hev2⟩ := IHf ts v2 r2 hrec
      obtain ⟨e, hpl, hev⟩ := IHtl v2 e2 r2 v r h hev2
      refine ⟨hne2, e, ?_, hev⟩
      simp only [parse_termF]
      rw [hpf2, obind_ok]
      exact hpl
    · -- conv_term_loopF
      intro acc node ts v r h hevn
      rcases ts with _ | ⟨t, tl⟩
      · simp only [conv_term_loopF, cur_nil, Token.eof] at h
        simp only [Option.some.injEq, Prod.mk.injEq] at h
        obtain ⟨h1, h2⟩ := h
        subst h1
        subst h2
        exact ⟨node, by simp only [parse_term_loopF, cur_nil, Token.eof], hevn⟩
      · simp only [conv_term_loopF, cur_cons, List.tail_cons] at h
        rcases htt : t.token_type <;> simp only [htt] at h
        case ParanOpen =>
          rcases hrec : conv_factorF n (t :: tl) with _ | ⟨v2, r2⟩ <;> rw [hrec] at h <;>
            simp at h
          obtain ⟨hne2, e2, hpf2, hev2⟩ := IHf (t :: tl) v2 r2 hrec
          have hev3 : evalE (.BinaryOp node .Mul e2) = .ok (acc * v2) := by
            simp [evalE, hevn, hev2]
          obtain ⟨e, hpl, hev⟩ := IHtl (acc * v2) (.BinaryOp node .Mul e2) r2 v r h hev3
          refine ⟨e, ?_, hev⟩
          simp only [parse_term_loopF, cur_cons, List.tail_cons, htt]
          rw [hpf2, obind_ok]
          exact hpl
        case Number s =>
          rcases hrec : conv_factorF n (t :: tl) with _ | ⟨v2, r2⟩ <;> rw [hrec] at h <;>
            simp at h
          obtain ⟨hne2, e2, hpf2, hev2⟩ := IHf (t :: tl) v2 r2 hrec
          have hev3 : evalE (.BinaryOp node .Mul e2) = .ok (acc * v2) := by
            simp [evalE, hevn, hev2]
          obtain ⟨e, hpl, hev⟩ := IHtl (acc * v2) (.BinaryOp node .Mul e2) r2 v r h hev3
          refine ⟨e, ?_, hev⟩
          simp only [parse_term_loopF, cur_cons, List.tail_cons, htt]
          rw [hpf2, obind_ok]
          exact hpl
        case Mul =>
          rcases hrec : conv_factorF n tl with _ | ⟨v2, r2⟩ <;> rw [hrec] at h <;>
            simp at h
          obtain ⟨hne2, e2, hpf2, hev2⟩ := IHf tl v2 r2 hrec
          have hev3 : evalE (.BinaryOp node .Mul e2) = .ok (acc * v2) := by
            simp [evalE, hevn, hev2]
          obtain ⟨e, hpl, hev⟩ := IHtl (acc * v2) (.BinaryOp node .Mul e2) r2 v r h hev3
          refine ⟨e, ?_, hev⟩
          simp only [parse_term_loopF, cur_cons, List.tail_cons, htt]
          rw [hpf2, obind_ok]
          exact hpl
        case Div =>
          rcases hrec : conv_factorF n tl with _ | ⟨v2, r2⟩ <;> rw [hrec] at h <;>
            simp at h
          obtain ⟨hne2, e2, hpf2, hev2⟩ := IHf tl v2 r2 hrec
          obtain ⟨hb, h⟩ := h
          have hev3 : evalE (.BinaryOp node .Div e2) = .ok (acc / v2) := by
            simp [evalE, hevn, hev2, hb]
          obtain ⟨e, hpl, hev⟩ := IHtl (acc / v2) (.BinaryOp node .Div e2) r2 v r h hev3
          refine ⟨e, ?_, hev⟩
          simp only [parse_term_loopF, cur_cons, List.tail_cons, htt]
          rw [hpf2, obind_ok]
          exact hpl
        all_goals
          simp only [Option.some.injEq, Prod.mk.injEq] at h
          obtain ⟨h1, h2⟩ := h
          subst h1
          subst h2
          exact ⟨node, by simp only [parse_term_loopF, cur_cons, htt], hevn⟩
    · -- conv_exprF
      intro ts v r h
      simp only [conv_exprF] at h
      rcases hrec : conv_termF n ts with _ | ⟨v2, r2⟩ <;> rw [hrec] at h <;> simp at h
      obtain ⟨hne2, e2, hpt2, hev2⟩ := IHt ts v2 r2 hrec
      obtain ⟨e, hpl, hev⟩ := IHel v2 e2 r2 v r h hev2
      refine ⟨hne2, e, ?_, hev⟩
      simp only [parse_exprF]
      rw [hpt2, obind_ok]
      exact hpl
    · -- conv_expr_loopF
      intro acc node ts v r h hevn
      rcases ts with _ | ⟨t, tl⟩
      · simp only [conv_expr_loopF, cur_nil, Token.eof] at h
        simp only [Option.some.injEq, Prod.mk.injEq] at h
        obtain ⟨h1, h2⟩ := h
        subst h1
        subst h2
        exact ⟨node, by simp only [parse_expr_loopF, cur_nil, Token.eof], hevn⟩
      · simp only [conv_expr_loopF, cur_cons, List.tail_cons] at h
        rcases htt : t.token_type <;> simp only [htt] at h
        case Plus =>
          rcases hrec : conv_termF n tl with _ | ⟨v2, r2⟩ <;> rw [hrec] at h <;>
            simp at h
          obtain ⟨hne2, e2, hpt2, hev2⟩ := IHt tl v2 r2 hrec
          have hev3 : evalE (.BinaryOp node .Plus e2) = .ok (acc + v2) := by
            simp [evalE, hevn, hev2]
          obtain ⟨e, hpl, hev⟩ := IHel (acc + v2) (.BinaryOp node .Plus e2) r2 v r h hev3
          refine ⟨e, ?_, hev⟩
          simp only [parse_expr_loopF, cur_cons, List.tail_cons, htt]
          rw [hpt2, obind_ok]
          exact hpl
        case Minus =>
          rcases hrec : conv_termF n tl with _ | ⟨v2, r2⟩ <;> rw [hrec] at h <;>
            simp at h
          obtain ⟨hne2, e2, hpt2, hev2⟩ := IHt tl v2 r2 hrec
          have hev3 : evalE (.BinaryOp node .Minus e2) = .ok (acc - v2) := by
            simp [evalE, hevn, hev2]
          obtain ⟨e, hpl, hev⟩ := IHel (acc - v2) (.BinaryOp node .Minus e2) r2 v r h hev3
          refine ⟨e, ?_, hev⟩
          simp only [parse_expr_loopF, cur_cons, List.tail_cons, htt]
          rw [hpt2, obind_ok]
          exact hpl
        all_goals
          simp only [Option.some.injEq, Prod.mk.injEq] at h
          obtain ⟨h1, h2⟩ := h
          subst h1
          subst h2
          exact ⟨node, by simp only [parse_expr_loopF, cur_cons, htt], hevn⟩

/-- The pipeline against the conventional reading, at the `parse` level:
if the comment- and newline-filtered stream conventionally reads as value
`v`, the parser accepts (ignoring the leftovers), the expression compiles,
and execution returns exactly `v`. -/
theorem conventional_pipeline (ts : List Token) (v : ℚ) (r : List Token)
    (h : conventionalValue (filterTokens ts) = some (v, r)) :
    ∃ e c, parse ts = .ok e ∧ evalE e = .ok v ∧ compile e = .ok c ∧
      execute c = .ok v := by
  unfold conventionalValue at h
  obtain ⟨hne, e, hp, hev⟩ :=
    (conv_parse (3 * (filterTokens ts).length + 3)).2.2.2.1 (filterTokens ts) v r h
  have hres : parseExprResult (filterTokens ts) = .ok (e, r) := by
    have hsome : parse_exprF (3 * (filterTokens ts).length + 3) (filterTokens ts) =
        some (parseExprResult (filterTokens ts)) :=
      (Option.some_get (parse_exprF_isSome (filterTokens ts))).symm
    rw [hp] at hsome
    injection hsome with h3
    exact h3.symm
  have hpar : parse ts = .ok e := parse_ignores_rest ts hne e r hres
  have hgood : goodB e = true := by
    have hs := parseExprResult_spec (filterTokens ts)
    rw [hres] at hs
    exact hs.2
  obtain ⟨c, hc, hcne, hce⟩ := execute_compile e hgood
  exact ⟨e, c, hpar, hev, hc, by rw [hce, hev]⟩

/-! ## The claims -/

set_option maxHeartbeats 1000000 in
/-- C1: the full pipeline evaluates every arithmetic expression to its
conventional mathematical value under standard precedence: whenever the
tokenized input reads, under the spec-modelled conventional grammar
(`conv_exprF`: star, slash and implicit multiplication binding tighter
than binary plus and minus, all levels left-associative via accumulator
loops, unary plus and minus and parentheses in factors), as value `v`,
then parse, compile and execute produce exactly `v`; in particular the
claim's four examples "1 + 2 * 3", "(1 + 2) * 3", "3(5)" and "2 * 3(4)"
evaluate to 7, 9, 15 and 24. -/
theorem evaluate_lines_precedence_examples :
    (∀ (l : List Char) (ts : List Token) (v : ℚ) (r : List Token),
      tokenize l = .ok ts →
      conventionalValue (filterTokens ts) = some (v, r) →
      ∃ e c, parse ts = .ok e ∧ compile e = .ok c ∧ execute c = .ok v) ∧
    evaluate_lines "1 + 2 * 3".data = [.ok (7, "1 + 2 * 3".data)] ∧
    evaluate_lines "(1 + 2) * 3".data = [.ok (9, "(1 + 2) * 3".data)] ∧
    evaluate_lines "3(5)".data = [.ok (15, "3(5)".data)] ∧
    evaluate_lines "2 * 3(4)".data = [.ok (24, "2 * 3(4)".data)] := by
  refine ⟨?_, ?_, ?_, ?_, ?_⟩
  · intro l ts v r _ h
    obtain ⟨e, c, hp, hev, hc, hx⟩ := conventional_pipeline ts v r h
    exact ⟨e, c, hp, hc, hx⟩
  · have hjoin : joinLines "1 + 2 * 3".data = [("1 + 2 * 3".data, 1)] := by
      simp +decide [joinLines, linesOf, splitNl, stripCR, joinStep, stripComment,
        trim, trimLeft, trimRight, isWhitespaceR, List.enum, List.enumFrom]
    have htok : tokenize (trim "1 + 2 * 3".data) =
        .ok [⟨.Number ['1'], 1, 1, 2⟩, ⟨.Plus, 1, 3, 3⟩, ⟨.Number ['2'], 1, 5, 6⟩,
          ⟨.Mul, 1, 7, 7⟩, ⟨.Number ['3'], 1, 9, 10⟩, ⟨.EOF, 1, 10, 10⟩] := by
      simp +decide [tokenize, tokenizeAuxF, step, numScan, expScan, trim, trimLeft,
        trimRight, isWhitespaceR, Token.number, Token.plus, Token.mul, Token.eof]
    have hparse : parse [⟨.Number ['1'], 1, 1, 2⟩, ⟨.Plus, 1, 3, 3⟩,
          ⟨.Number ['2'], 1, 5, 6⟩, ⟨.Mul, 1, 7, 7⟩, ⟨.Number ['3'], 1, 9, 10⟩,
          ⟨.EOF, 1, 10, 10⟩] =
        .ok (.BinaryOp (.Number 1) .Plus (.BinaryOp (.Number 2) .Mul (.Number 3))) := by
      simp +decide [parse, parseExprResult, parse_exprF_eq_M, parse_exprM, parse_termM,
        parse_term_loopM, parse_factorM, parse_expr_loopM, cur, filterTokens,
        rustParseFloat, digitsToNat]
    have hcomp : compile (.BinaryOp (.Number 1) .Plus
          (.BinaryOp (.Number 2) .Mul (.Number 3))) =
        .ok [.Push 1, .Push 2, .Push 3, .Mul, .Add] := rfl
    have hexec : execute [.Push 1, .Push 2, .Push 3, .Mul, .Add] = .ok 7 := by
      norm_num [execute, execGo]
    rw [evaluate_lines_eq_map, hjoin]
    simp only [List.map_cons, List.map_nil, evalStatement1, htok, hparse, hcomp, hexec]
  · have hjoin : joinLines "(1 + 2) * 3".data = [("(1 + 2) * 3".data, 1)] := by
      simp +decide [joinLines, linesOf, splitNl, stripCR, joinStep, stripComment,
        trim, trimLeft, trimRight, isWhitespaceR, List.enum, List.enumFrom]
    have htok : tokenize (trim "(1 + 2) * 3".data) =
        .ok [⟨.ParanOpen, 1, 1, 1⟩, ⟨.Number ['1'], 1, 2, 3⟩, ⟨.Plus, 1, 4, 4⟩,
          ⟨.Number ['2'], 1, 6, 7⟩, ⟨.ParanClose, 1, 7, 7⟩, ⟨.Mul, 1, 9, 9⟩,
          ⟨.Number ['3'], 1, 11, 12⟩, ⟨.EOF, 1, 12, 12⟩] := by
      simp +decide [tokenize, tokenizeAuxF, step, numScan, expScan, trim, trimLeft,
        trimRight, isWhitespaceR, Token.number, Token.plus, Token.mul,
        Token.paran_open, Token.paran_close, Token.eof]
    have hparse : parse [⟨.ParanOpen, 1, 1, 1⟩, ⟨.Number ['1'], 1, 2, 3⟩, ⟨.Plus, 1, 4, 4⟩,
          ⟨.Number ['2'], 1, 6, 7⟩, ⟨.ParanClose, 1, 7, 7⟩, ⟨.Mul, 1, 9, 9⟩,
          ⟨.Number ['3'], 1, 11, 12⟩, ⟨.EOF, 1, 12, 12⟩] =
        .ok (.BinaryOp (.BinaryOp (.Number 1) .Plus (.Number 2)) .Mul (.Number 3)) := by
      simp +decide [parse, parseExprResult, parse_exprF_eq_M, parse_exprM, parse_termM,
        parse_term_loopM, parse_factorM, parse_expr_loopM, cur, filterTokens,
        rustParseFloat, digitsToNat]
    have hcomp : compile (.BinaryOp (.BinaryOp (.Number 1) .Plus (.Number 2)) .Mul
          (.Number 3)) =
        .ok [.Push 1, .Push 2, .Add, .Push 3, .Mul] := rfl
    have hexec : execute [.Push 1, .Push 2, .Add, .Push 3, .Mul] = .ok 9 := by
      norm_num [execute, execGo]
    rw [evaluate_lines_eq_map, hjoin]
    simp only [List.map_cons, List.map_nil, evalStatement1, htok, hparse, hcomp, hexec]
  · have hjoin : joinLines "3(5)".data = [("3(5)".data, 1)] := by
      simp +decide [joinLines, linesOf, splitNl, stripCR, joinStep, stripComment,
        trim, trimLeft, trimRight, isWhitespaceR, List.enum, List.enumFrom]
    have htok : tokenize (trim "3(5)".data) =
        .ok [⟨.Number ['3'], 1, 1, 2⟩, ⟨.ParanOpen, 1, 2, 2⟩, ⟨.Number ['5'], 1, 3, 4⟩,
          ⟨.ParanClose, 1, 4, 4⟩, ⟨.EOF, 1, 5, 5⟩] := by
      simp +decide [tokenize, tokenizeAuxF, step, numScan, expScan, trim, trimLeft,
        trimRight, isWhitespaceR, Token.number, Token.paran_open, Token.paran_close,
        Token.eof]
    have hparse : parse [⟨.Number ['3'], 1, 1, 2⟩, ⟨.ParanOpen, 1, 2, 2⟩,
          ⟨.Number ['5'], 1, 3, 4⟩, ⟨.ParanClose, 1, 4, 4⟩, ⟨.EOF, 1, 5, 5⟩] =
        .ok (.BinaryOp (.Number 3) .Mul (.Number 5)) := by
      simp +decide [parse, parseExprResult, parse_exprF_eq_M, parse_exprM, parse_termM,
        parse_term_loopM, parse_factorM, parse_expr_loopM, cur, filterTokens,
        rustParseFloat, digitsToNat]
    have hcomp : compile (.BinaryOp (.Number 3) .Mul (.Number 5)) =
        .ok [.Push 3, .Push 5, .Mul] := rfl
    have hexec : execute [.Push 3, .Push 5, .Mul] = .ok 15 := by
      norm_num [execute, execGo]
    rw [evaluate_lines_eq_map, hjoin]
    simp only [List.map_cons, List.map_nil, evalStatement1, htok, hparse, hcomp, hexec]
  · have hjoin : joinLines "2 * 3(4)".data = [("2 * 3(4)".data, 1)] := by
      simp +decide [joinLines, linesOf, splitNl, stripCR, joinStep, stripComment,
        trim, trimLeft, trimRight, isWhitespaceR, List.enum, List.enumFrom]
    have htok : tokenize (trim "2 * 3(4)".data) =
        .ok [⟨.Number ['2'], 1, 1, 2⟩, ⟨.Mul, 1, 3, 3⟩, ⟨.Number ['3'], 1, 5, 6⟩,
          ⟨.ParanOpen, 1, 6, 6⟩, ⟨.Number ['4'], 1, 7, 8⟩, ⟨.ParanClose, 1, 8, 8⟩,
          ⟨.EOF, 1, 9, 9⟩] := by
      simp +decide [tokenize, tokenizeAuxF, step, numScan, expScan, trim, trimLeft,
        trimRight, isWhitespaceR, Token.number, Token.mul, Token.paran_open,
        Token.paran_close, Token.eof]
    have hparse : parse [⟨.Number ['2'], 1, 1, 2⟩, ⟨.Mul, 1, 3, 3⟩,
          ⟨.Number ['3'], 1, 5, 6⟩, ⟨.ParanOpen, 1, 6, 6⟩, ⟨.Number ['4'], 1, 7, 8⟩,
          ⟨.ParanClose, 1, 8, 8⟩, ⟨.EOF, 1, 9, 9⟩] =
        .ok (.BinaryOp (.BinaryOp (.Number 2) .Mul (.Number 3)) .Mul (.Number 4)) := by
      simp +decide [parse, parseExprResult, parse_exprF_eq_M, parse_exprM, parse_termM,
        parse_term_loopM, parse_factorM, parse_expr_loopM, cur, filterTokens,
        rustParseFloat, digitsToNat]
    have hcomp : compile (.BinaryOp (.BinaryOp (.Number 2) .Mul (.Number 3)) .Mul
          (.Number 4)) =
        .ok [.Push 2, .Push 3, .Mul, .Push 4, .Mul] := rfl
    have hexec : execute [.Push 2, .Push 3, .Mul, .Push 4, .Mul] = .ok 24 := by
      norm_num [execute, execGo]
    rw [evaluate_lines_eq_map, hjoin]
    simp only [List.map_cons, List.map_nil, evalStatement1, htok, hparse, hcomp, hexec]


set_option maxHeartbeats 1000000 in
theorem evaluate_lines_precedence_examples_witness :
    ∃ e c, parse [⟨.Number ['7'], 1, 1, 2⟩, ⟨.EOF, 1, 2, 2⟩] = .ok e ∧
      compile e = .ok c ∧ execute c = .ok 7 :=
  evaluate_lines_precedence_examples.1 "7".data
    [⟨.Number ['7'], 1, 1, 2⟩, ⟨.EOF, 1, 2, 2⟩] 7 [⟨.EOF, 1, 2, 2⟩]
    (by simp +decide [tokenize, tokenizeAuxF, step, numScan, expScan, Token.number,
      Token.eof])
    (by simp +decide [conventionalValue, conv_exprF, conv_termF, conv_term_loopF,
      conv_factorF, conv_expr_loopF, cur, filterTokens, rustParseFloat, digitsToNat])

set_option maxHeartbeats 1000000 in
/-- C2: what the shipped code actually does on the claim's variable program
"let a = 1\na = 2\na": the parser has no `let`, identifier or assignment
handling, so all three statements fail with `UnexpectedToken` parse errors
and no numeric result is produced — refuting the claimed single result 2.0
and the claimed `undefined variable` error. -/
theorem evaluate_lines_let_statements_all_parse_errors :
    evaluate_lines "let a = 1\na = 2\na".data =
      [.error (.Parse (.UnexpectedToken .Let 1 1) "let a = 1".data 1),
       .error (.Parse (.UnexpectedToken (.Identifier ['a']) 1 1) "a = 2".data 2),
       .error (.Parse (.UnexpectedToken (.Identifier ['a']) 1 1) "a".data 3)] := by
  have hjoin : joinLines "let a = 1\na = 2\na".data =
      [("let a = 1".data, 1), ("a = 2".data, 2), ("a".data, 3)] := by
    simp +decide [joinLines, linesOf, splitNl, stripCR, joinStep, stripComment,
      trim, trimLeft, trimRight, isWhitespaceR, List.enum, List.enumFrom]
  have htok1 : tokenize (trim "let a = 1".data) =
      .ok [⟨.Let, 1, 1, 3⟩, ⟨.Identifier ['a'], 1, 5, 5⟩, ⟨.Assign, 1, 7, 7⟩,
        ⟨.Number ['1'], 1, 9, 10⟩, ⟨.EOF, 1, 10, 10⟩] := by
    simp +decide [tokenize, tokenizeAuxF, step, numScan, expScan, trim, trimLeft,
      trimRight, isWhitespaceR, Token.number, Token.identifier, Token.let_token,
      Token.assign, Token.eof]
  have hparse1 : parse [⟨.Let, 1, 1, 3⟩, ⟨.Identifier ['a'], 1, 5, 5⟩, ⟨.Assign, 1, 7, 7⟩,
        ⟨.Number ['1'], 1, 9, 10⟩, ⟨.EOF, 1, 10, 10⟩] =
      .error (.UnexpectedToken .Let 1 1) := by
    simp +decide [parse, parseExprResult, parse_exprF_eq_M, parse_exprM, parse_termM,
      parse_term_loopM, parse_factorM, parse_expr_loopM, cur, filterTokens,
      rustParseFloat, digitsToNat]
  have htok2 : tokenize (trim "a = 2".data) =
      .ok [⟨.Identifier ['a'], 1, 1, 1⟩, ⟨.Assign, 1, 3, 3⟩, ⟨.Number ['2'], 1, 5, 6⟩,
        ⟨.EOF, 1, 6, 6⟩] := by
    simp +decide [tokenize, tokenizeAuxF, step, numScan, expScan, trim, trimLeft,
      trimRight, isWhitespaceR, Token.number, Token.identifier, Token.assign, Token.eof]
  have hparse2 : parse [⟨.Identifier ['a'], 1, 1, 1⟩, ⟨.Assign, 1, 3, 3⟩,
        ⟨.Number ['2'], 1, 5, 6⟩, ⟨.EOF, 1, 6, 6⟩] =
      .error (.UnexpectedToken (.Identifier ['a']) 1 1) := by
    simp +decide [parse, parseExprResult, parse_exprF_eq_M, parse_exprM, parse_termM,
      parse_term_loopM, parse_factorM, parse_expr_loopM, cur, filterTokens,
      rustParseFloat, digitsToNat]
  have htok3 : tokenize (trim "a".data) =
      .ok [⟨.Identifier ['a'], 1, 1, 1⟩, ⟨.EOF, 1, 2, 2⟩] := by
    simp +decide [tokenize, tokenizeAuxF, step, numScan, expScan, trim, trimLeft,
      trimRight, isWhitespaceR, Token.identifier, Token.eof]
  have hparse3 : parse [⟨.Identifier ['a'], 1, 1, 1⟩, ⟨.EOF, 1, 2, 2⟩] =
      .error (.UnexpectedToken (.Identifier ['a']) 1 1) := by
    simp +decide [parse, parseExprResult, parse_exprF_eq_M, parse_exprM, parse_termM,
      parse_term_loopM, parse_factorM, parse_expr_loopM, cur, filterTokens,
      rustParseFloat, digitsToNat]
  rw [evaluate_lines_eq_map, hjoin]
  simp only [List.map_cons, List.map_nil, evalStatement1, htok1, hparse1, htok2,
    hparse2, htok3, hparse3]

set_option maxHeartbeats 1000000 in
/-- C3 (counterexample): on "1+" the parser hits EOF mid-expression and
returns `UnexpectedToken` whose `found` is the EOF token — not the claimed
`UnexpectedEOF`. -/
theorem parse_dangling_plus_unexpected_token :
    tokenize "1+".data =
      .ok [⟨.Number ['1'], 1, 1, 2⟩, ⟨.Plus, 1, 2, 2⟩, ⟨.EOF, 1, 3, 3⟩] ∧
    parse [⟨.Number ['1'], 1, 1, 2⟩, ⟨.Plus, 1, 2, 2⟩, ⟨.EOF, 1, 3, 3⟩] =
      .error (.UnexpectedToken .EOF 1 3) ∧
    (ParserError.UnexpectedToken .EOF 1 3).isUEOF = false := by
  refine ⟨?_, ?_, rfl⟩
  · simp +decide [tokenize, tokenizeAuxF, step, numScan, expScan,
      Token.number, Token.plus, Token.eof]
  · simp +decide [parse, parseExprResult, parse_exprF_eq_M, parse_exprM, parse_termM,
      parse_term_loopM, parse_factorM, parse_expr_loopM, cur, filterTokens,
      rustParseFloat, digitsToNat]

/-- C3 (amended): a parse failure is never the `UnexpectedEOF` variant —
running out of input mid-expression is reported as `UnexpectedToken` whose
`found` token is the EOF token, at the EOF token's position. -/
theorem parse_error_never_unexpected_eof :
    ∀ (ts : List Token) (pe : ParserError),
      parse ts = .error pe → pe.isUEOF = false :=
  fun ts pe h => parse_error_not_ueof ts pe h

set_option maxHeartbeats 1000000 in
theorem parse_error_never_unexpected_eof_witness :
    (ParserError.UnexpectedToken .EOF 1 3).isUEOF = false :=
  parse_error_never_unexpected_eof
    [⟨.Number ['1'], 1, 1, 2⟩, ⟨.Plus, 1, 2, 2⟩, ⟨.EOF, 1, 3, 3⟩]
    (.UnexpectedToken .EOF 1 3)
    (by simp +decide [parse, parseExprResult, parse_exprF_eq_M, parse_exprM,
      parse_termM, parse_term_loopM, parse_factorM, parse_expr_loopM, cur,
      filterTokens, rustParseFloat, digitsToNat])

set_option maxHeartbeats 1000000 in
/-- C4: the orchestrator is failure-isolating and order-preserving — the
output is exactly the map of the straight-line per-statement evaluator over
the retained logical statements, one entry per non-blank statement in
source order; and the claim's example "1 + 1\n; comment\n2 * 2" yields
exactly the two entries 2 and 4 in order, the comment line contributing
nothing. -/
theorem evaluate_lines_one_entry_per_statement :
    (∀ input : List Char,
      evaluate_lines input = (joinLines input).map evalStatement1) ∧
    evaluate_lines "1 + 1\n; comment\n2 * 2".data =
      [.ok (2, "1 + 1".data), .ok (4, "2 * 2".data)] := by
  refine ⟨evaluate_lines_eq_map, ?_⟩
  have hjoin : joinLines "1 + 1\n; comment\n2 * 2".data =
      [("1 + 1".data, 1), ("2 * 2".data, 3)] := by
    simp +decide [joinLines, linesOf, splitNl, stripCR, joinStep, stripComment,
      trim, trimLeft, trimRight, isWhitespaceR, List.enum, List.enumFrom]
  have htok1 : tokenize (trim "1 + 1".data) =
      .ok [⟨.Number ['1'], 1, 1, 2⟩, ⟨.Plus, 1, 3, 3⟩, ⟨.Number ['1'], 1, 5, 6⟩,
        ⟨.EOF, 1, 6, 6⟩] := by
    simp +decide [tokenize, tokenizeAuxF, step, numScan, expScan, trim, trimLeft,
      trimRight, isWhitespaceR, Token.number, Token.plus, Token.eof]
  have hparse1 : parse [⟨.Number ['1'], 1, 1, 2⟩, ⟨.Plus, 1, 3, 3⟩,
        ⟨.Number ['1'], 1, 5, 6⟩, ⟨.EOF, 1, 6, 6⟩] =
      .ok (.BinaryOp (.Number 1) .Plus (.Number 1)) := by
    simp +decide [parse, parseExprResult, parse_exprF_eq_M, parse_exprM, parse_termM,
      parse_term_loopM, parse_factorM, parse_expr_loopM, cur, filterTokens,
      rustParseFloat, digitsToNat]
  have hcomp1 : compile (.BinaryOp (.Number 1) .Plus (.Number 1)) =
      .ok [.Push 1, .Push 1, .Add] := rfl
  have hexec1 : execute [.Push 1, .Push 1, .Add] = .ok 2 := by
    norm_num [execute, execGo]
  have htok2 : tokenize (trim "2 * 2".data) =
      .ok [⟨.Number ['2'], 1, 1, 2⟩, ⟨.Mul, 1, 3, 3⟩, ⟨.Number ['2'], 1, 5, 6⟩,
        ⟨.EOF, 1, 6, 6⟩] := by
    simp +decide [tokenize, tokenizeAuxF, step, numScan, expScan, trim, trimLeft,
      trimRight, isWhitespaceR, Token.number, Token.mul, Token.eof]
  have hparse2 : parse [⟨.Number ['2'], 1, 1, 2⟩, ⟨.Mul, 1, 3, 3⟩,
        ⟨.Number ['2'], 1, 5, 6⟩, ⟨.EOF, 1, 6, 6⟩] =
      .ok (.BinaryOp (.Number 2) .Mul (.Number 2)) := by
    simp +decide [parse, parseExprResult, parse_exprF_eq_M, parse_exprM, parse_termM,
      parse_term_loopM, parse_factorM, parse_expr_loopM, cur, filterTokens,
      rustParseFloat, digitsToNat]
  have hcomp2 : compile (.BinaryOp (.Number 2) .Mul (.Number 2)) =
      .ok [.Push 2, .Push 2, .Mul] := rfl
  have hexec2 : execute [.Push 2, .Push 2, .Mul] = .ok 4 := by
    norm_num [execute, execGo]
  rw [evaluate_lines_eq_map, hjoin]
  simp only [List.map_cons, List.map_nil, evalStatement1, htok1, hparse1, hcomp1,
    hexec1, htok2, hparse2, hcomp2, hexec2]

set_option maxHeartbeats 1000000 in
/-- C5: `Div` fails with `DivisionByZero` exactly when the first-popped
value (the right operand) is zero, the check coming before the second pop
and before the division — on a one-element stack a zero divisor still gives
`DivisionByZero`, not `StackUnderflow`; and the claim's examples "1 / 0"
and "(5+5)/(3-3)" both fail with `DivisionByZero`. -/
theorem execGo_div_by_zero_exact :
    (∀ (rest : List Instr) (b a : ℚ) (s : List ℚ),
      execGo (.Div :: rest) (b :: a :: s) =
        if b = 0 then .error .DivisionByZero else execGo rest ((a / b) :: s)) ∧
    (∀ (rest : List Instr) (b : ℚ),
      execGo (.Div :: rest) [b] =
        if b = 0 then .error .DivisionByZero else .error (.StackUnderflow "Div")) ∧
    evaluate_lines "1 / 0".data =
      [.error (.Exec .DivisionByZero "1 / 0".data)] ∧
    evaluate_lines "(5+5)/(3-3)".data =
      [.error (.Exec .DivisionByZero "(5+5)/(3-3)".data)] := by
  refine ⟨fun rest b a s => rfl, fun rest b => rfl, ?_, ?_⟩
  · have hjoin : joinLines "1 / 0".data = [("1 / 0".data, 1)] := by
      simp +decide [joinLines, linesOf, splitNl, stripCR, joinStep, stripComment,
        trim, trimLeft, trimRight, isWhitespaceR, List.enum, List.enumFrom]
    have htok : tokenize (trim "1 / 0".data) =
        .ok [⟨.Number ['1'], 1, 1, 2⟩, ⟨.Div, 1, 3, 3⟩, ⟨.Number ['0'], 1, 5, 6⟩,
          ⟨.EOF, 1, 6, 6⟩] := by
      simp +decide [tokenize, tokenizeAuxF, step, numScan, expScan, trim, trimLeft,
        trimRight, isWhitespaceR, Token.number, Token.div, Token.eof]
    have hparse : parse [⟨.Number ['1'], 1, 1, 2⟩, ⟨.Div, 1, 3, 3⟩,
          ⟨.Number ['0'], 1, 5, 6⟩, ⟨.EOF, 1, 6, 6⟩] =
        .ok (.BinaryOp (.Number 1) .Div (.Number 0)) := by
      simp +decide [parse, parseExprResult, parse_exprF_eq_M, parse_exprM, parse_termM,
        parse_term_loopM, parse_factorM, parse_expr_loopM, cur, filterTokens,
        rustParseFloat, digitsToNat]
    have hcomp : compile (.BinaryOp (.Number 1) .Div (.Number 0)) =
        .ok [.Push 1, .Push 0, .Div] := rfl
    have hexec : execute [.Push 1, .Push 0, .Div] = .error .DivisionByZero := by
      norm_num [execute, execGo]
    rw [evaluate_lines_eq_map, hjoin]
    simp only [List.map_cons, List.map_nil, evalStatement1, htok, hparse, hcomp, hexec]
  · have hjoin : joinLines "(5+5)/(3-3)".data = [("(5+5)/(3-3)".data, 1)] := by
      simp +decide [joinLines, linesOf, splitNl, stripCR, joinStep, stripComment,
        trim, trimLeft, trimRight, isWhitespaceR, List.enum, List.enumFrom]
    have htok : tokenize (trim "(5+5)/(3-3)".data) =
        .ok [⟨.ParanOpen, 1, 1, 1⟩, ⟨.Number ['5'], 1, 2, 3⟩, ⟨.Plus, 1, 3, 3⟩,
          ⟨.Number ['5'], 1, 4, 5⟩, ⟨.ParanClose, 1, 5, 5⟩, ⟨.Div, 1, 6, 6⟩,
          ⟨.ParanOpen, 1, 7, 7⟩, ⟨.Number ['3'], 1, 8, 9⟩, ⟨.Minus, 1, 9, 9⟩,
          ⟨.Number ['3'], 1, 10, 11⟩, ⟨.ParanClose, 1, 11, 11⟩, ⟨.EOF, 1, 12, 12⟩] := by
      simp +decide [tokenize, tokenizeAuxF, step, numScan, expScan, trim, trimLeft,
        trimRight, isWhitespaceR, Token.number, Token.plus, Token.minus, Token.div,
        Token.paran_open, Token.paran_close, Token.eof]
    have hparse : parse [⟨.ParanOpen, 1, 1, 1⟩, ⟨.Number ['5'], 1, 2, 3⟩, ⟨.Plus, 1, 3, 3⟩,
          ⟨.Number ['5'], 1, 4, 5⟩, ⟨.ParanClose, 1, 5, 5⟩, ⟨.Div, 1, 6, 6⟩,
          ⟨.ParanOpen, 1, 7, 7⟩, ⟨.Number ['3'], 1, 8, 9⟩, ⟨.Minus, 1, 9, 9⟩,
          ⟨.Number ['3'], 1, 10, 11⟩, ⟨.ParanClose, 1, 11, 11⟩, ⟨.EOF, 1, 12, 12⟩] =
        .ok (.BinaryOp (.BinaryOp (.Number 5) .Plus (.Number 5)) .Div
          (.BinaryOp (.Number 3) .Minus (.Number 3))) := by
      simp +decide [parse, parseExprResult, parse_exprF_eq_M, parse_exprM, parse_termM,
        parse_term_loopM, parse_factorM, parse_expr_loopM, cur, filterTokens,
        rustParseFloat, digitsToNat]
    have hcomp : compile (.BinaryOp (.BinaryOp (.Number 5) .Plus (.Number 5)) .Div
          (.BinaryOp (.Number 3) .Minus (.Number 3))) =
        .ok [.Push 5, .Push 5, .Add, .Push 3, .Push 3, .Sub, .Div] := rfl
    have hexec : execute [.Push 5, .Push 5, .Add, .Push 3, .Push 3, .Sub, .Div] =
        .error .DivisionByZero := by
      norm_num [execute, execGo]
    rw [evaluate_lines_eq_map, hjoin]
    simp only [List.map_cons, List.map_nil, evalStatement1, htok, hparse, hcomp, hexec]

set_option maxHeartbeats 1000000 in
/-- C6 (counterexample): the parser-producible expression `1 / 0` compiles
to a stack-balanced sequence whose execution nevertheless is not `Ok`: it
fails with `DivisionByZero`, refuting the claim that execute returns `Ok`
for every parser-producible non-`Empty` expression. -/
theorem execute_division_by_zero_counterexample :
    tokenize "1/0".data =
      .ok [⟨.Number ['1'], 1, 1, 2⟩, ⟨.Div, 1, 2, 2⟩, ⟨.Number ['0'], 1, 3, 4⟩,
           ⟨.EOF, 1, 4, 4⟩] ∧
    parse [⟨.Number ['1'], 1, 1, 2⟩, ⟨.Div, 1, 2, 2⟩, ⟨.Number ['0'], 1, 3, 4⟩,
           ⟨.EOF, 1, 4, 4⟩] =
      .ok (.BinaryOp (.Number 1) .Div (.Number 0)) ∧
    compile (.BinaryOp (.Number 1) .Div (.Number 0)) =
      .ok [.Push 1, .Push 0, .Div] ∧
    execute [.Push 1, .Push 0, .Div] = .error .DivisionByZero := by
  refine ⟨?_, ?_, rfl, ?_⟩
  · simp +decide [tokenize, tokenizeAuxF, step, numScan, expScan,
      Token.number, Token.div, Token.eof]
  · simp +decide [parse, parseExprResult, parse_exprF_eq_M, parse_exprM, parse_termM,
      parse_term_loopM, parse_factorM, parse_expr_loopM, cur, filterTokens,
      rustParseFloat, digitsToNat]
  · norm_num [execute, execGo]

/-- C6 (amended): every expression the parser returns, other than `Empty`,
compiles to a nonempty stack-balanced sequence whose execution from the
empty stack never hits `StackUnderflow` or `NoResult`: it computes the
reference value, and the only possible failure is `DivisionByZero`; `Empty`
compiles to zero instructions and `EmptyParen` to `Push 0`. -/
theorem parser_exprs_stack_safe :
    (∀ (ts : List Token) (e : Expr), parse ts = .ok e → e ≠ .Empty →
      ∃ c, compile e = .ok c ∧ c ≠ [] ∧ execute c = evalE e ∧
        ∀ er, execute c = .error er → er = .DivisionByZero) ∧
    compile .Empty = .ok [] ∧ compile .EmptyParen = .ok [.Push 0] := by
  refine ⟨?_, rfl, rfl⟩
  intro ts e hp hne
  have hg : goodB e = true := by
    rcases parse_ok_good ts e hp with he | hg
    · exact absurd he hne
    · exact hg
  obtain ⟨c, h1, h2, h3⟩ := execute_compile e hg
  refine ⟨c, h1, h2, h3, ?_⟩
  intro er her
  rw [h3] at her
  exact evalE_error_div e hg er her

set_option maxHeartbeats 1000000 in
theorem parser_exprs_stack_safe_witness :
    ∃ c, compile (Expr.Number 1) = .ok c ∧ c ≠ [] ∧
      execute c = evalE (Expr.Number 1) ∧
      ∀ er, execute c = .error er → er = .DivisionByZero :=
  parser_exprs_stack_safe.1
    [⟨.Number ['1'], 1, 1, 2⟩, ⟨.EOF, 1, 2, 2⟩] (Expr.Number 1)
    (by simp +decide [parse, parseExprResult, parse_exprF_eq_M, parse_exprM,
      parse_termM, parse_term_loopM, parse_factorM, parse_expr_loopM, cur,
      filterTokens, rustParseFloat, digitsToNat])
    (by simp)

/-- C7: for every input, tokenize either fails with `UnexpectedCharacter`
carrying an unrecognized character of the input — returning no tokens at
all — or succeeds with a token list whose last element is its one and only
EOF token. -/
theorem tokenize_single_eof_or_unexpected_char :
    ∀ l : List Char,
      (∀ ts, tokenize l = .ok ts →
        ∃ pre L C, ts = pre ++ [Token.eof L C] ∧ ∀ t ∈ pre, t.token_type ≠ .EOF) ∧
      (∀ e, tokenize l = .error e →
        ∃ c L C, e = .UnexpectedCharacter c L C ∧ recognizedStart c = false ∧ c ∈ l) :=
  fun l => ⟨fun ts h => ((tokenize_spec l).1 ts h).1, (tokenize_spec l).2⟩

set_option maxHeartbeats 1000000 in
theorem tokenize_single_eof_or_unexpected_char_witness :
    ∃ pre L C,
      ([⟨.Number ['1'], 1, 1, 2⟩, ⟨.EOF, 1, 2, 2⟩] : List Token) =
        pre ++ [Token.eof L C] ∧ ∀ t ∈ pre, t.token_type ≠ .EOF :=
  (tokenize_single_eof_or_unexpected_char "1".data).1
    [⟨.Number ['1'], 1, 1, 2⟩, ⟨.EOF, 1, 2, 2⟩]
    (by simp +decide [tokenize, tokenizeAuxF, step, numScan, expScan, Token.number,
      Token.eof])

set_option maxHeartbeats 1000000 in
/-- C8: a line whose trimmed content ends in a backslash is a continuation:
the backslash is dropped and the re-trimmed remainder plus one space is
appended to the statement buffer, the statement's recorded line number is
the 1-based number of the physical line that started it, and the claim's
example "1 + \" followed by "2" joins to the single statement "1 + 2" at
line 1, evaluating to the single result 3. -/
theorem joinStep_backslash_continuation :
    (∀ (st : JoinSt) (p : Nat × List Char),
      (trim (stripComment p.2)).getLast? = some '\\' →
      joinStep st p =
        ⟨st.buf ++ trim (trim (stripComment p.2)).dropLast ++ [' '],
         if st.buf = [] then p.1 + 1 else st.startLn, st.acc⟩) ∧
    joinLines "1 + \\\n2".data = [("1 + 2".data, 1)] ∧
    evaluate_lines "1 + \\\n2".data = [.ok (3, "1 + 2".data)] := by
  have hjoin : joinLines "1 + \\\n2".data = [("1 + 2".data, 1)] := by
    simp +decide [joinLines, linesOf, splitNl, stripCR, joinStep, stripComment,
      trim, trimLeft, trimRight, isWhitespaceR, List.enum, List.enumFrom]
  refine ⟨?_, hjoin, ?_⟩
  · intro st p h
    simp only [joinStep]
    rw [if_pos h]
  · have htok : tokenize (trim "1 + 2".data) =
        .ok [⟨.Number ['1'], 1, 1, 2⟩, ⟨.Plus, 1, 3, 3⟩, ⟨.Number ['2'], 1, 5, 6⟩,
          ⟨.EOF, 1, 6, 6⟩] := by
      simp +decide [tokenize, tokenizeAuxF, step, numScan, expScan, trim, trimLeft,
        trimRight, isWhitespaceR, Token.number, Token.plus, Token.eof]
    have hparse : parse [⟨.Number ['1'], 1, 1, 2⟩, ⟨.Plus, 1, 3, 3⟩,
          ⟨.Number ['2'], 1, 5, 6⟩, ⟨.EOF, 1, 6, 6⟩] =
        .ok (.BinaryOp (.Number 1) .Plus (.Number 2)) := by
      simp +decide [parse, parseExprResult, parse_exprF_eq_M, parse_exprM, parse_termM,
        parse_term_loopM, parse_factorM, parse_expr_loopM, cur, filterTokens,
        rustParseFloat, digitsToNat]
    have hcomp : compile (.BinaryOp (.Number 1) .Plus (.Number 2)) =
        .ok [.Push 1, .Push 2, .Add] := rfl
    have hexec : execute [.Push 1, .Push 2, .Add] = .ok 3 := by
      norm_num [execute, execGo]
    rw [evaluate_lines_eq_map, hjoin]
    simp only [List.map_cons, List.map_nil, evalStatement1, htok, hparse, hcomp, hexec]

set_option maxHeartbeats 1000000 in
theorem joinStep_backslash_continuation_witness :
    joinStep ⟨[], 0, []⟩ (0, "1 + \\".data) =
      ⟨[] ++ trim (trim (stripComment "1 + \\".data)).dropLast ++ [' '],
       if ([] : List Char) = [] then 0 + 1 else 0, []⟩ :=
  joinStep_backslash_continuation.1 ⟨[], 0, []⟩ (0, "1 + \\".data) (by decide)

set_option maxHeartbeats 1000000 in
/-- C9: the parser ignores tokens left over after a complete expression —
whatever `parse_expr` leaves unconsumed, `parse` returns just the parsed
prefix expression — so "1+2)" with its stray closing parenthesis evaluates
to the single successful result 3 rather than an error. -/
theorem parse_ignores_leftover_tokens :
    (∀ (ts : List Token) (e : Expr) (r : List Token),
      (cur (filterTokens ts)).token_type ≠ .EOF →
      parseExprResult (filterTokens ts) = .ok (e, r) →
      parse ts = .ok e) ∧
    evaluate_lines "1+2)".data = [.ok (3, "1+2)".data)] := by
  refine ⟨fun ts e r hne h => parse_ignores_rest ts hne e r h, ?_⟩
  have hjoin : joinLines "1+2)".data = [("1+2)".data, 1)] := by
    simp +decide [joinLines, linesOf, splitNl, stripCR, joinStep, stripComment,
      trim, trimLeft, trimRight, isWhitespaceR, List.enum, List.enumFrom]
  have htok : tokenize (trim "1+2)".data) =
      .ok [⟨.Number ['1'], 1, 1, 2⟩, ⟨.Plus, 1, 2, 2⟩, ⟨.Number ['2'], 1, 3, 4⟩,
        ⟨.ParanClose, 1, 4, 4⟩, ⟨.EOF, 1, 5, 5⟩] := by
    simp +decide [tokenize, tokenizeAuxF, step, numScan, expScan, trim, trimLeft,
      trimRight, isWhitespaceR, Token.number, Token.plus, Token.paran_close, Token.eof]
  have hparse : parse [⟨.Number ['1'], 1, 1, 2⟩, ⟨.Plus, 1, 2, 2⟩,
        ⟨.Number ['2'], 1, 3, 4⟩, ⟨.ParanClose, 1, 4, 4⟩, ⟨.EOF, 1, 5, 5⟩] =
      .ok (.BinaryOp (.Number 1) .Plus (.Number 2)) := by
    simp +decide [parse, parseExprResult, parse_exprF_eq_M, parse_exprM, parse_termM,
      parse_term_loopM, parse_factorM, parse_expr_loopM, cur, filterTokens,
      rustParseFloat, digitsToNat]
  have hcomp : compile (.BinaryOp (.Number 1) .Plus (.Number 2)) =
      .ok [.Push 1, .Push 2, .Add] := rfl
  have hexec : execute [.Push 1, .Push 2, .Add] = .ok 3 := by
    norm_num [execute, execGo]
  rw [evaluate_lines_eq_map, hjoin]
  simp only [List.map_cons, List.map_nil, evalStatement1, htok, hparse, hcomp, hexec]

set_option maxHeartbeats 1000000 in
theorem parse_ignores_leftover_tokens_witness :
    parse [⟨.Number ['1'], 1, 1, 2⟩, ⟨.Plus, 1, 2, 2⟩, ⟨.Number ['2'], 1, 3, 4⟩,
           ⟨.ParanClose, 1, 4, 4⟩, ⟨.EOF, 1, 5, 5⟩] =
      .ok (.BinaryOp (.Number 1) .Plus (.Number 2)) :=
  parse_ignores_leftover_tokens.1
    [⟨.Number ['1'], 1, 1, 2⟩, ⟨.Plus, 1, 2, 2⟩, ⟨.Number ['2'], 1, 3, 4⟩,
     ⟨.ParanClose, 1, 4, 4⟩, ⟨.EOF, 1, 5, 5⟩]
    (.BinaryOp (.Number 1) .Plus (.Number 2))
    [⟨.ParanClose, 1, 4, 4⟩, ⟨.EOF, 1, 5, 5⟩]
    (by decide)
    (by simp +decide [parseExprResult, parse_exprF_eq_M, parse_exprM, parse_termM,
      parse_term_loopM, parse_factorM, parse_expr_loopM, cur, filterTokens,
      rustParseFloat, digitsToNat])

set_option maxHeartbeats 1000000 in
/-- C10: an unterminated trailing continuation is not dropped — on
"1 + \" the buffered partial statement "1 + " is flushed as a logical
statement at line 1 and evaluated like any other, producing exactly one
entry: the parse error for the incomplete expression. -/
theorem evaluate_lines_trailing_backslash_flushed :
    joinLines "1 + \\".data = [("1 + ".data, 1)] ∧
    evaluate_lines "1 + \\".data =
      [.error (.Parse (.UnexpectedToken .EOF 1 4) "1 + ".data 1)] := by
  have hjoin : joinLines "1 + \\".data = [("1 + ".data, 1)] := by
    simp +decide [joinLines, linesOf, splitNl, stripCR, joinStep, stripComment,
      trim, trimLeft, trimRight, isWhitespaceR, List.enum, List.enumFrom]
  refine ⟨hjoin, ?_⟩
  have htok : tokenize (trim "1 + ".data) =
      .ok [⟨.Number ['1'], 1, 1, 2⟩, ⟨.Plus, 1, 3, 3⟩, ⟨.EOF, 1, 4, 4⟩] := by
    simp +decide [tokenize, tokenizeAuxF, step, numScan, expScan, trim, trimLeft,
      trimRight, isWhitespaceR, Token.number, Token.plus, Token.eof]
  have hparse : parse [⟨.Number ['1'], 1, 1, 2⟩, ⟨.Plus, 1, 3, 3⟩, ⟨.EOF, 1, 4, 4⟩] =
      .error (.UnexpectedToken .EOF 1 4) := by
    simp +decide [parse, parseExprResult, parse_exprF_eq_M, parse_exprM, parse_termM,
      parse_term_loopM, parse_factorM, parse_expr_loopM, cur, filterTokens,
      rustParseFloat, digitsToNat]
  rw [evaluate_lines_eq_map, hjoin]
  simp only [List.map_cons, List.map_nil, evalStatement1, htok, hparse]

end Arith
